import Mathlib

/-!
Verification development for the kitchen-simulation interaction core
(`src/script.ts`, final evolution): the placeable/placed-on attachment
graph, the drag/placement candidate logic and the recipe engine.

The TypeScript code is shallowly embedded: `THREE.Object3D` nodes are
identified by their numeric `id`; a `World` is an association list from
ids to the data the core reads and writes (position, rotation, and the
`userData` record holding `typeId`, `placeableData` and `selectableData`).
Vector coordinates are exact rationals.  Functions that `throw` in
TypeScript return `Except String`; the two recursive traversals
(`getAllChildsSet`, `recursiveUpdatePlaceableObject`), which have no
termination guard in source, are embedded with explicit fuel and return
`none` when the fuel runs out.
-/

/-- Component-wise rational 3-vector, standing in for `THREE.Vector3`. -/
structure V3 where
  x : Rat
  y : Rat
  z : Rat
deriving DecidableEq

instance : Inhabited V3 := ⟨⟨0, 0, 0⟩⟩

instance : Add V3 := ⟨fun a b => ⟨a.x + b.x, a.y + b.y, a.z + b.z⟩⟩

instance : Sub V3 := ⟨fun a b => ⟨a.x - b.x, a.y - b.y, a.z - b.z⟩⟩

/-- `SelectedUserData` from source: the back-reference to the current host
(`placedOn`, an object id or none) and the per-object place offset. -/
structure SelectedUserData where
  placedOn : Option Nat
  placeOffset : V3
deriving DecidableEq

/-- `PlaceableUserData` from source: the host's own place offset and the two
parallel attachment lists (child ids, and each child's last position relative
to the host). -/
structure PlaceableUserData where
  placeOffset : V3
  placedObject : List Nat
  lastPlaceObjectPos : List V3
deriving DecidableEq

/-- `GameObjectData` from source (the `userData` bag).  The
`interactableData` field holds only a UI string and a callback and is not
read by any of the verified operations, so it is omitted. -/
structure GameObjectData where
  typeId : String
  placeableData : Option PlaceableUserData
  selectableData : Option SelectedUserData
deriving DecidableEq

instance : Inhabited GameObjectData := ⟨⟨"", none, none⟩⟩

/-- The per-object state the core reads and writes on a `THREE.Object3D`:
its world position, its rotation (an Euler triple in source) and its
`userData`. -/
structure Obj where
  position : V3
  rotation : V3
  userData : GameObjectData
deriving DecidableEq

instance : Inhabited Obj := ⟨⟨default, default, default⟩⟩

/-- The mutable world: scene-graph objects keyed by `Object3D.id`, plus the
list of ids currently added to the `THREE.Scene`. -/
structure World where
  entries : List (Nat × Obj)
  scene : List Nat
deriving DecidableEq

/-- The ids of all registered objects. -/
def World.ids (w : World) : List Nat := w.entries.map Prod.fst

/-- Look an object up by id; unregistered ids read as a blank object (in
TypeScript such a read would be a reference error, and no verified theorem
depends on the default). -/
def World.objData (w : World) (i : Nat) : Obj :=
  (w.entries.lookup i).getD default

def World.pos (w : World) (i : Nat) : V3 := (w.objData i).position

def World.rot (w : World) (i : Nat) : V3 := (w.objData i).rotation

def World.selData (w : World) (i : Nat) : Option SelectedUserData :=
  (w.objData i).userData.selectableData

def World.plData (w : World) (i : Nat) : Option PlaceableUserData :=
  (w.objData i).userData.placeableData

def World.typeIdOf (w : World) (i : Nat) : String := (w.objData i).userData.typeId

/-- The host's attachment list (`placeableData.placedObject`), empty when the
object has no `Placeable` record. -/
def childIds (w : World) (p : Nat) : List Nat :=
  match w.plData p with
  | some pd => pd.placedObject
  | none => []

/-- The parallel relative-position list (`placeableData.lastPlaceObjectPos`). -/
def childOffs (w : World) (p : Nat) : List V3 :=
  match w.plData p with
  | some pd => pd.lastPlaceObjectPos
  | none => []

/-- `selectableData.placedOn`, or none when the object has no `Selectable`
record. -/
def placedOnOf (w : World) (o : Nat) : Option Nat :=
  match w.selData o with
  | some sd => sd.placedOn
  | none => none

/-- Apply `f` to the object stored under id `i` (all entries with that key,
matching TypeScript mutation of the shared node). -/
def World.update (w : World) (i : Nat) (f : Obj → Obj) : World :=
  { w with entries := w.entries.map (fun p => if p.1 = i then (p.1, f p.2) else p) }

def setPos (w : World) (i : Nat) (v : V3) : World :=
  w.update i (fun o => { o with position := v })

def setRot (w : World) (i : Nat) (v : V3) : World :=
  w.update i (fun o => { o with rotation := v })

def setSel (w : World) (i : Nat) (sd : Option SelectedUserData) : World :=
  w.update i (fun o => { o with userData := { o.userData with selectableData := sd } })

def setPl (w : World) (i : Nat) (pd : Option PlaceableUserData) : World :=
  w.update i (fun o => { o with userData := { o.userData with placeableData := pd } })

/-- `scene.remove(obj)`: drop the id from the scene list. -/
def sceneRemove (w : World) (i : Nat) : World :=
  { w with scene := w.scene.erase i }

/-- `addObjOnPlaceableObject(placeableObj, obj)` (source lines 722-743).
The source throws "Cannot place object on another one again!" when
`selectableData.placedOn` is non-null; it would raise a TypeError if either
`selectableData` (of `obj`) or `placeableData` (of `placeableObj`) were
null, both before any mutation.  On success it sets the placed position
(own x/z, host's y, plus both place offsets), appends `obj` and its
host-relative position to the host's parallel lists, and points
`placedOn` at the host. -/
def addObjOnPlaceableObject (w : World) (placeableObj obj : Nat) :
    Except String World :=
  match w.selData obj with
  | none => .error "TypeError: selectableData is null"
  | some selectedData =>
    match selectedData.placedOn with
    | some _ => .error "Cannot place object on another one again!"
    | none =>
      match w.plData placeableObj with
      | none => .error "TypeError: placeableData is null"
      | some newPlacedOnData =>
        let placePos : V3 :=
          (⟨(w.pos obj).x, (w.pos placeableObj).y, (w.pos obj).z⟩ : V3)
            + selectedData.placeOffset + newPlacedOnData.placeOffset
        let w1 := setPos w obj placePos
        let w2 := setPl w1 placeableObj (some
          { newPlacedOnData with
            placedObject := newPlacedOnData.placedObject ++ [obj],
            lastPlaceObjectPos := newPlacedOnData.lastPlaceObjectPos
              ++ [w1.pos obj - w1.pos placeableObj] })
        let w3 := setSel w2 obj (some { selectedData with placedOn := some placeableObj })
        .ok w3

/-- `removeObjOnPlaceableObject(obj)` (source lines 744-765).  A no-op when
`placedOn` is null; a TypeError (before any mutation) if `selectableData`,
or the host's `placeableData`, is null.  Otherwise it splices the first
entry whose id matches `obj` out of both parallel lists and clears
`placedOn`.  The source's scan-and-splice of the first matching index is
`eraseIdx` at `indexOf` (when the id is absent the index equals the list
length and `eraseIdx` changes nothing, like the source loop). -/
def removeObjOnPlaceableObject (w : World) (obj : Nat) : Except String World :=
  match w.selData obj with
  | none => .error "TypeError: selectableData is null"
  | some selectedData =>
    match selectedData.placedOn with
    | none => .ok w
    | some host =>
      match w.plData host with
      | none => .error "TypeError: placeableData is null"
      | some lastPlaceableData =>
        let i := lastPlaceableData.placedObject.indexOf obj
        let w1 := setPl w host (some
          { lastPlaceableData with
            placedObject := lastPlaceableData.placedObject.eraseIdx i,
            lastPlaceObjectPos := lastPlaceableData.lastPlaceObjectPos.eraseIdx i })
        .ok (setSel w1 obj (some { selectedData with placedOn := none }))

/-- `getAllChildsSet(obj)` (source lines 698-720), with explicit fuel in
place of the source's unguarded recursion: collect every directly or
transitively attached child id.  The JavaScript `Set` is modelled by a list
up to membership.  `none` means the fuel ran out (in source: unbounded
recursion). -/
def getAllChildsSetF : Nat → World → Nat → Option (List Nat)
  | 0, _, _ => none
  | n + 1, w, obj =>
    match w.plData obj with
    | none => some []
    | some pd =>
      pd.placedObject.foldlM
        (fun acc c => (getAllChildsSetF n w c).map (fun cs => acc ++ c :: cs)) []

/-- `recursiveUpdatePlaceableObject(placeableObj)` (source lines 767-781),
with explicit fuel in place of the source's unguarded recursion: reposition
each attached child to the host's current position plus the recorded
relative position, then recurse into the child.  `none` means the fuel ran
out (in source: unbounded recursion). -/
def recUpdateF : Nat → World → Nat → Option World
  | 0, _, _ => none
  | n + 1, w, x =>
    match w.plData x with
    | none => some w
    | some pd =>
      (pd.placedObject.zip pd.lastPlaceObjectPos).foldlM
        (fun wacc (p : Nat × V3) =>
          recUpdateF n (setPos wacc p.1 (wacc.pos x + p.2)) p.1) w

/-- `IngredientData` from source. -/
structure IngredientData where
  typeId : String
  minimumCount : Nat
  useCount : Nat
deriving DecidableEq

/-- `RecipeData` from source.  The `output` producers are asynchronous
loader callbacks and the sound path is only passed to the audio
collaborator; neither is read by the matching or consuming logic verified
here, so only the ingredient list is kept. -/
structure RecipeData where
  ingredients : List IngredientData
deriving DecidableEq

/-- The typeIds of the objects currently attached to `surface`, in
attachment-list order; `runRecipeLogic` builds its `objectsInPlace`
count map from exactly this list (source lines 476-490). -/
def typesOn (w : World) (surface : Nat) : List String :=
  (childIds w surface).map (w.typeIdOf)

/-- The per-recipe validity test of `runRecipeLogic` (source lines 494-518)
over the attached type list: the recipe is skipped unless its ingredient
count equals the number of distinct attached types (`objectsInPlace.size`),
and each ingredient's typeId must be present (`get` not undefined, i.e.
count nonzero) with count at least `minimumCount`. -/
def recipeMatches (types : List String) (r : RecipeData) : Bool :=
  (r.ingredients.length == types.dedup.length) &&
  r.ingredients.all (fun ing =>
    (decide (0 < types.count ing.typeId)) &&
    (decide (ing.minimumCount ≤ types.count ing.typeId)))

/-- One pass of the inner consuming scan (source lines 530-540): find the
first attached object of the ingredient's type, remove it from the scene
and detach it; do nothing if no such object remains. -/
def removeOneOfType (w : World) (surface : Nat) (t : String) :
    Except String World :=
  match (childIds w surface).find? (fun c => w.typeIdOf c == t) with
  | none => .ok w
  | some c => removeObjOnPlaceableObject (sceneRemove w c) c

/-- The `useCount` iterations of the consuming scan for one ingredient
(source lines 528-541). -/
def consumeIngredient (w : World) (surface : Nat) (ing : IngredientData) :
    Except String World :=
  (List.range ing.useCount).foldlM (fun wacc _ => removeOneOfType wacc surface ing.typeId) w

/-- The consuming phase over all ingredients of the matched recipe
(source lines 524-542). -/
def consumeAll (w : World) (surface : Nat) (ings : List IngredientData) :
    Except String World :=
  ings.foldlM (fun wacc ing => consumeIngredient wacc surface ing) w

/-- The match-and-consume core of `runRecipeLogic(obj)` (source lines
471-542): build the attached type multiset once, take the first recipe that
passes `recipeMatches`, run the consuming phase on it, and report which
recipe (if any) succeeded.  The output-spawning phase (lines 543-553)
constructs new objects through the asynchronous loader collaborator and is
outside the claims' cited ranges. -/
def runRecipeConsume (w : World) (surface : Nat) (rs : List RecipeData) :
    Except String (World × Option RecipeData) :=
  match rs.find? (fun r => recipeMatches (typesOn w surface) r) with
  | none => .ok (w, none)
  | some r => (consumeAll w surface r.ingredients).map (fun w' => (w', some r))

/-- One raycast hit during a drag, resolved (as in `checkRaycast`) to the
top placeable ancestor's id, together with the hit point's distance to the
camera. -/
structure Hit where
  objId : Nat
  dist : Rat
deriving DecidableEq

/-- The skip conditions of the candidate loop in `checkRaycast` (source
lines 660-681): a hit is retained unless it is farther than
`maxPlaceableObjDistance = 2.0`, resolves to the dragged object itself, or
resolves to a member of the dragged object's child set. -/
def hitEligible (ignoreId : List Nat) (dragged : Nat) (h : Hit) : Bool :=
  !(decide ((2 : Rat) < h.dist)) && !(h.objId == dragged) && !(ignoreId.contains h.objId)

/-- The placement-candidate selection of `checkRaycast` while dragging
(source lines 656-681): compute `ignoreId = getAllChildsSet(selectedObject)`
and take the first hit, in ray order, that passes every skip condition.
The outer `none` means the child-set recursion ran out of fuel. -/
def checkPlacementCandidate (w : World) (fuel dragged : Nat) (hits : List Hit) :
    Option (Option Nat) :=
  match getAllChildsSetF fuel w dragged with
  | none => none
  | some ignoreId =>
    some ((hits.find? (hitEligible ignoreId dragged)).map (fun h => h.objId))

/-- One dragging tick's effect on the dragged object (source lines 692-694):
the object is moved to some tentative position and
`recursiveUpdatePlaceableObject` carries its attachments along. -/
def dragTick (fuel : Nat) (w : World) (obj : Nat) (p : V3) : Option World :=
  recUpdateF fuel (setPos w obj p) obj

/-- A whole drag: the ticks' tentative positions are arbitrary (they come
from the raycast), so the drag is parametrised by the list of positions. -/
def dragTicks (fuel : Nat) (w : World) (obj : Nat) (ps : List V3) : Option World :=
  ps.foldlM (fun wacc p => dragTick fuel wacc obj p) w

/-- The rollback branch of `onPointerUp` (source lines 907-913): restore the
snapshotted position and rotation taken by `onPointerDown` (lines 896-897)
and re-propagate from the object. -/
def releaseNoCandidate (fuel : Nat) (w : World) (obj : Nat) (snapPos snapRot : V3) :
    Option World :=
  recUpdateF fuel (setRot (setPos w obj snapPos) obj snapRot) obj

/-- The attachment edge: `c` occurs in `p`'s `placedObject` list. -/
def Edge (w : World) (p c : Nat) : Prop := c ∈ childIds w p

/-- Acyclicity of the attachment relation: no object reaches itself through
one or more attachment edges. -/
def Acyclic (w : World) : Prop := ∀ x, ¬ Relation.TransGen (Edge w) x x

/-- Consistency of one object's `placedOn` back-reference: it is null, or it
names a registered host whose attachment list contains the object. -/
def SelOk (w : World) (o : Nat) : Prop :=
  placedOnOf w o = none ∨ ∃ h ∈ w.ids, placedOnOf w o = some h ∧ o ∈ childIds w h

/-- The attachment-graph well-formedness invariant: ids are distinct, each
host's parallel lists agree in length, each attachment list is duplicate
free and lists only registered objects whose `placedOn` points back at the
host, and each `placedOn` is consistent. -/
def WF (w : World) : Prop :=
  w.ids.Nodup ∧
  (∀ p ∈ w.ids, (childIds w p).length = (childOffs w p).length ∧
    (childIds w p).Nodup ∧
    ∀ c ∈ childIds w p, c ∈ w.ids ∧ placedOnOf w c = some p) ∧
  (∀ o ∈ w.ids, SelOk w o)

/-- Attachment lists only mention registered objects. -/
def Closed (w : World) : Prop :=
  ∀ p ∈ w.ids, ∀ c ∈ childIds w p, c ∈ w.ids

instance (w : World) (o : Nat) : Decidable (SelOk w o) :=
  decidable_of_iff
    (placedOnOf w o = none ∨ ∃ h ∈ w.ids, placedOnOf w o = some h ∧ o ∈ childIds w h)
    Iff.rfl

instance (w : World) : Decidable (WF w) :=
  decidable_of_iff
    (w.ids.Nodup ∧
      (∀ p ∈ w.ids, (childIds w p).length = (childOffs w p).length ∧
        (childIds w p).Nodup ∧
        ∀ c ∈ childIds w p, c ∈ w.ids ∧ placedOnOf w c = some p) ∧
      (∀ o ∈ w.ids, SelOk w o))
    Iff.rfl

instance (w : World) : Decidable (Closed w) :=
  decidable_of_iff (∀ p ∈ w.ids, ∀ c ∈ childIds w p, c ∈ w.ids) Iff.rfl

/-- Position correctness of one host's direct children: each child sits at
the host's position plus its recorded relative position. -/
def ChildrenOk (w : World) (y : Nat) : Prop :=
  ∀ pr ∈ (childIds w y).zip (childOffs w y), w.pos pr.1 = w.pos y + pr.2

/-- The userData bag of an object — the part of the world no position
update touches. -/
def dataOf (w : World) (i : Nat) : GameObjectData := (w.objData i).userData

/-- One non-throwing attach or detach call, the mutation steps claim C2
quantifies over. -/
inductive Step : World → World → Prop where
  | attach (h o : Nat) (w w' : World) :
      addObjOnPlaceableObject w h o = .ok w' → Step w w'
  | detach (o : Nat) (w w' : World) :
      removeObjOnPlaceableObject w o = .ok w' → Step w w'

/-- One guarded mutation step: attaches are restricted exactly as the drag
controller restricts placement candidates in `checkRaycast` (source lines
670-677) — the host is neither the dragged object itself nor a member of
its descendant set.  Detaches are unrestricted. -/
inductive GStep : World → World → Prop where
  | attach (h o : Nat) (w w' : World) :
      h ≠ o → ¬ Relation.TransGen (Edge w) o h →
      addObjOnPlaceableObject w h o = .ok w' → GStep w w'
  | detach (o : Nat) (w w' : World) :
      removeObjOnPlaceableObject w o = .ok w' → GStep w w'

/-- The recipe-matching predicate as the spec sentence words it, for
comparison against the source's `recipeMatches`: the number of DISTINCT
required ingredient types equals the number of distinct attached types, and
every required type is present with count at least its minimum. -/
def specRecipeMatches (types : List String) (r : RecipeData) : Prop :=
  (r.ingredients.map (fun ing => ing.typeId)).dedup.length = types.dedup.length ∧
  ∀ ing ∈ r.ingredients,
    0 < types.count ing.typeId ∧ ing.minimumCount ≤ types.count ing.typeId

/-- Build an object record. -/
def mkObj (p : V3) (t : String) (pl : Option PlaceableUserData)
    (sel : Option SelectedUserData) : Obj :=
  { position := p, rotation := ⟨0, 0, 0⟩, userData := { typeId := t, placeableData := pl, selectableData := sel } }

/-- Demo world: a table (id 0, Placeable, place offset `(0, 0.0225, 0)`, at
height `0.85`) and an unattached knife (id 1, Selectable, place offset
`(0, 0.085, 0)`). -/
def wPair : World :=
  { entries :=
      [(0, mkObj ⟨0, 0.85, 0⟩ "meja" (some ⟨⟨0, 0.0225, 0⟩, [], []⟩) none),
       (1, mkObj ⟨0.2, 0, -0.2⟩ "pisau" none (some ⟨none, ⟨0, 0.085, 0⟩⟩))],
    scene := [0, 1] }

/-- The world after attaching the knife to the table in `wPair`. -/
def wPairAttached : World :=
  match addObjOnPlaceableObject wPair 0 1 with
  | .ok w => w
  | .error _ => wPair

/-- Demo world: a second table (id 0) at a different height `0.5`, for the
re-attach scenario; the knife (id 1) is currently unattached. -/
def wPair2 : World :=
  { entries :=
      [(0, mkObj ⟨0, 0.5, 0⟩ "meja2" (some ⟨⟨0, 0.0225, 0⟩, [], []⟩) none),
       (1, mkObj ⟨0.2, 0.9575, -0.2⟩ "pisau" none (some ⟨none, ⟨0, 0.085, 0⟩⟩))],
    scene := [0, 1] }

/-- The world after attaching the knife to the second table in `wPair2`. -/
def wPair2Attached : World :=
  match addObjOnPlaceableObject wPair2 0 1 with
  | .ok w => w
  | .error _ => wPair2

/-- Demo world: a single object (id 0) that is both Placeable and
Selectable — like the repository's `talenan` or `piring` — currently
attached to nothing. -/
def wSelfLoop : World :=
  { entries :=
      [(0, mkObj ⟨0, 0, 0⟩ "piring" (some ⟨⟨0, 0, 0⟩, [], []⟩)
          (some ⟨none, ⟨0, 0.05, 0⟩⟩))],
    scene := [0] }

/-- The world produced by the non-throwing call
`addObjOnPlaceableObject(piring, piring)` on `wSelfLoop`. -/
def wSelfLoopCyc : World :=
  match addObjOnPlaceableObject wSelfLoop 0 0 with
  | .ok w => w
  | .error _ => wSelfLoop

/-- Demo world: table (id 0) hosting a plate (id 1) which hosts a knife
(id 2); each recorded relative position is the child's current position
minus the host's. -/
def wChain : World :=
  { entries :=
      [(0, mkObj ⟨0, 0.85, 0⟩ "meja" (some ⟨⟨0, 0.0225, 0⟩, [1], [⟨0, 0.1, 0⟩]⟩) none),
       (1, mkObj ⟨0, 0.95, 0⟩ "piring" (some ⟨⟨0, 0, 0⟩, [2], [⟨0, 0.05, 0⟩]⟩)
          (some ⟨some 0, ⟨0, 0.05, 0⟩⟩)),
       (2, mkObj ⟨0, 1, 0⟩ "pisau" none (some ⟨some 1, ⟨0, 0.085, 0⟩⟩))],
    scene := [0, 1, 2] }

/-- Demo world: a cutting board (id 0) with two chicken fillets (ids 1, 2)
attached. -/
def wTwoChick : World :=
  { entries :=
      [(0, mkObj ⟨0.5, 0, 0.25⟩ "talenan"
          (some ⟨⟨0, 0, 0⟩, [1, 2], [⟨0, 0.1, 0⟩, ⟨0, 0.1, 0.1⟩]⟩) none),
       (1, mkObj ⟨0.5, 0.1, 0.25⟩ "ayam-filet" none (some ⟨some 0, ⟨0, 0.1, 0⟩⟩)),
       (2, mkObj ⟨0.5, 0.1, 0.35⟩ "ayam-filet" none (some ⟨some 0, ⟨0, 0.1, 0⟩⟩))],
    scene := [0, 1, 2] }

/-- Demo world: a cutting board (id 0) with a single chicken fillet (id 1)
attached. -/
def wOneChick : World :=
  { entries :=
      [(0, mkObj ⟨0.5, 0, 0.25⟩ "talenan"
          (some ⟨⟨0, 0, 0⟩, [1], [⟨0, 0.1, 0⟩]⟩) none),
       (1, mkObj ⟨0.5, 0.1, 0.25⟩ "ayam-filet" none (some ⟨some 0, ⟨0, 0.1, 0⟩⟩))],
    scene := [0, 1] }

/-- Demo world: a cutting board (id 0) holding one object of type "A"
(id 1) and one of type "B" (id 2). -/
def wAB : World :=
  { entries :=
      [(0, mkObj ⟨0, 0, 0⟩ "talenan"
          (some ⟨⟨0, 0, 0⟩, [1, 2], [⟨0, 0, 0⟩, ⟨0, 0, 0⟩]⟩) none),
       (1, mkObj ⟨0, 0, 0⟩ "A" none (some ⟨some 0, ⟨0, 0, 0⟩⟩)),
       (2, mkObj ⟨0, 0, 0⟩ "B" none (some ⟨some 0, ⟨0, 0, 0⟩⟩))],
    scene := [0, 1, 2] }

/-- A recipe whose ingredient list mentions the same typeId twice. -/
def recipeDup : RecipeData := ⟨[⟨"A", 1, 0⟩, ⟨"A", 1, 0⟩]⟩

/-- A chop recipe: one chicken fillet required, one consumed. -/
def recipeChick : RecipeData := ⟨[⟨"ayam-filet", 1, 1⟩]⟩

/-- A recipe that would consume more instances than it requires present:
minimum 1, useCount 2. -/
def recipeOver : RecipeData := ⟨[⟨"ayam-filet", 1, 2⟩]⟩

/-- The board world after evaluating the fillet recipe on `wTwoChick`. -/
def wTwoChickAfter : World :=
  match runRecipeConsume wTwoChick 0 [recipeChick] with
  | .ok (w, _) => w
  | .error _ => wTwoChick

/-- The board world after evaluating the over-consuming recipe on
`wOneChick`. -/
def wOneChickAfter : World :=
  match runRecipeConsume wOneChick 0 [recipeOver] with
  | .ok (w, _) => w
  | .error _ => wOneChick

/-- The list of attachment edges of a world (host, child). -/
def edgesList (w : World) : List (Nat × Nat) :=
  (w.ids.map (fun p => (childIds w p).map (fun c => (p, c)))).flatten

/-- `wChain` after re-running propagation from the table. -/
def wChainProp : World :=
  match recUpdateF 3 wChain 0 with
  | some w => w
  | none => wChain

/-- `wChain` after one speculative drag tick that moves the plate (id 1)
to `(2, 3, 4)` and propagates. -/
def wChainDrag : World :=
  match dragTicks 3 wChain 1 [⟨2, 3, 4⟩] with
  | some w => w
  | none => wChain

/-- `wChainDrag` after releasing with no placement candidate: the plate's
snapshotted position and rotation are restored and propagation re-runs. -/
def wChainBack : World :=
  match releaseNoCandidate 3 wChainDrag 1 (wChain.pos 1) (wChain.rot 1) with
  | some w => w
  | none => wChainDrag

/-! ### Lemmas about lookup and update -/

theorem lookup_map_ite (l : List (Nat × Obj)) (i j : Nat) (f : Obj → Obj) :
    List.lookup j (l.map (fun p => if p.1 = i then (p.1, f p.2) else p)) =
      if j = i then (List.lookup j l).map f else List.lookup j l := by
  induction l with
  | nil => simp [List.lookup]
  | cons a t ih =>
    obtain ⟨k, b⟩ := a
    simp only [List.map_cons]
    by_cases hk : k = i
    · subst hk
      rw [show (if (k, b).1 = k then ((k, b).1, f (k, b).2) else (k, b)) = (k, f b) by simp]
      by_cases hj : j = k
      · subst hj
        simp [List.lookup]
      · simp [List.lookup, beq_false_of_ne hj, ih, hj]
    · rw [show (if (k, b).1 = i then ((k, b).1, f (k, b).2) else (k, b)) = (k, b) by simp [hk]]
      by_cases hj : j = k
      · subst hj
        simp [List.lookup, if_neg hk]
      · simp [List.lookup, beq_false_of_ne hj, ih]

theorem lookup_eq_none_of_not_mem {l : List (Nat × Obj)} {j : Nat}
    (h : j ∉ l.map Prod.fst) : List.lookup j l = none := by
  induction l with
  | nil => simp [List.lookup]
  | cons a t ih =>
    simp only [List.map_cons, List.mem_cons] at h
    push_neg at h
    simp [List.lookup, beq_false_of_ne h.1, ih h.2]

theorem mem_of_lookup_some {l : List (Nat × Obj)} {j : Nat} {v : Obj}
    (h : List.lookup j l = some v) : j ∈ l.map Prod.fst := by
  by_contra hn
  rw [lookup_eq_none_of_not_mem hn] at h
  exact Option.noConfusion h

theorem lookup_some_of_mem {l : List (Nat × Obj)} {j : Nat}
    (h : j ∈ l.map Prod.fst) : ∃ v, List.lookup j l = some v := by
  induction l with
  | nil => simp at h
  | cons a t ih =>
    obtain ⟨k, b⟩ := a
    by_cases hj : j = k
    · subst hj
      exact ⟨b, by simp [List.lookup]⟩
    · simp only [List.map_cons, List.mem_cons] at h
      rcases h with h | h
      · exact absurd h hj
      · obtain ⟨v, hv⟩ := ih h
        exact ⟨v, by simp [List.lookup, beq_false_of_ne hj, hv]⟩

@[simp] theorem ids_update (w : World) (i : Nat) (f : Obj → Obj) :
    (w.update i f).ids = w.ids := by
  simp only [World.update, World.ids, List.map_map]
  congr 1
  funext p
  by_cases h : p.1 = i <;> simp [h]

@[simp] theorem scene_update (w : World) (i : Nat) (f : Obj → Obj) :
    (w.update i f).scene = w.scene := rfl

theorem objData_update_ne (w : World) {i j : Nat} (f : Obj → Obj) (h : j ≠ i) :
    (w.update i f).objData j = w.objData j := by
  simp [World.objData, World.update, lookup_map_ite, h]

theorem objData_update_self (w : World) {i : Nat} (f : Obj → Obj) (h : i ∈ w.ids) :
    (w.update i f).objData i = f (w.objData i) := by
  obtain ⟨v, hv⟩ := lookup_some_of_mem (by simpa [World.ids] using h)
  simp [World.objData, World.update, lookup_map_ite, hv]

theorem objData_update_not_mem (w : World) {i : Nat} (f : Obj → Obj) (h : i ∉ w.ids) :
    (w.update i f).objData i = w.objData i := by
  have hl := lookup_eq_none_of_not_mem (by simpa [World.ids] using h)
  simp [World.objData, World.update, lookup_map_ite, hl]

/-! ### Effect lemmas for the primitive mutators -/

@[simp] theorem dataOf_setPos (w : World) (i : Nat) (v : V3) (j : Nat) :
    dataOf (setPos w i v) j = dataOf w j := by
  unfold dataOf setPos
  by_cases hj : j = i
  · subst hj
    by_cases hm : j ∈ w.ids
    · rw [objData_update_self w _ hm]
    · rw [objData_update_not_mem w _ hm]
  · rw [objData_update_ne w _ hj]

@[simp] theorem rot_setPos (w : World) (i : Nat) (v : V3) (j : Nat) :
    (setPos w i v).rot j = w.rot j := by
  unfold World.rot setPos
  by_cases hj : j = i
  · subst hj
    by_cases hm : j ∈ w.ids
    · rw [objData_update_self w _ hm]
    · rw [objData_update_not_mem w _ hm]
  · rw [objData_update_ne w _ hj]

theorem pos_setPos_ne (w : World) {i j : Nat} (v : V3) (h : j ≠ i) :
    (setPos w i v).pos j = w.pos j := by
  unfold World.pos setPos
  rw [objData_update_ne w _ h]

theorem pos_setPos_self (w : World) {i : Nat} (v : V3) (h : i ∈ w.ids) :
    (setPos w i v).pos i = v := by
  unfold World.pos setPos
  rw [objData_update_self w _ h]

theorem pos_setPos_not_mem (w : World) {i : Nat} (v : V3) (h : i ∉ w.ids) :
    (setPos w i v).pos i = w.pos i := by
  unfold World.pos setPos
  rw [objData_update_not_mem w _ h]

@[simp] theorem ids_setPos (w : World) (i : Nat) (v : V3) :
    (setPos w i v).ids = w.ids := ids_update w i _

@[simp] theorem scene_setPos (w : World) (i : Nat) (v : V3) :
    (setPos w i v).scene = w.scene := rfl

@[simp] theorem dataOf_setRot (w : World) (i : Nat) (v : V3) (j : Nat) :
    dataOf (setRot w i v) j = dataOf w j := by
  unfold dataOf setRot
  by_cases hj : j = i
  · subst hj
    by_cases hm : j ∈ w.ids
    · rw [objData_update_self w _ hm]
    · rw [objData_update_not_mem w _ hm]
  · rw [objData_update_ne w _ hj]

@[simp] theorem pos_setRot (w : World) (i : Nat) (v : V3) (j : Nat) :
    (setRot w i v).pos j = w.pos j := by
  unfold World.pos setRot
  by_cases hj : j = i
  · subst hj
    by_cases hm : j ∈ w.ids
    · rw [objData_update_self w _ hm]
    · rw [objData_update_not_mem w _ hm]
  · rw [objData_update_ne w _ hj]

theorem rot_setRot_ne (w : World) {i j : Nat} (v : V3) (h : j ≠ i) :
    (setRot w i v).rot j = w.rot j := by
  unfold World.rot setRot
  rw [objData_update_ne w _ h]

theorem rot_setRot_self (w : World) {i : Nat} (v : V3) (h : i ∈ w.ids) :
    (setRot w i v).rot i = v := by
  unfold World.rot setRot
  rw [objData_update_self w _ h]

@[simp] theorem ids_setRot (w : World) (i : Nat) (v : V3) :
    (setRot w i v).ids = w.ids := ids_update w i _

@[simp] theorem scene_setRot (w : World) (i : Nat) (v : V3) :
    (setRot w i v).scene = w.scene := rfl

@[simp] theorem pos_setSel (w : World) (i : Nat) (sd : Option SelectedUserData) (j : Nat) :
    (setSel w i sd).pos j = w.pos j := by
  unfold World.pos setSel
  by_cases hj : j = i
  · subst hj
    by_cases hm : j ∈ w.ids
    · rw [objData_update_self w _ hm]
    · rw [objData_update_not_mem w _ hm]
  · rw [objData_update_ne w _ hj]

@[simp] theorem rot_setSel (w : World) (i : Nat) (sd : Option SelectedUserData) (j : Nat) :
    (setSel w i sd).rot j = w.rot j := by
  unfold World.rot setSel
  by_cases hj : j = i
  · subst hj
    by_cases hm : j ∈ w.ids
    · rw [objData_update_self w _ hm]
    · rw [objData_update_not_mem w _ hm]
  · rw [objData_update_ne w _ hj]

@[simp] theorem plData_setSel (w : World) (i : Nat) (sd : Option SelectedUserData) (j : Nat) :
    (setSel w i sd).plData j = w.plData j := by
  unfold World.plData setSel
  by_cases hj : j = i
  · subst hj
    by_cases hm : j ∈ w.ids
    · rw [objData_update_self w _ hm]
    · rw [objData_update_not_mem w _ hm]
  · rw [objData_update_ne w _ hj]

@[simp] theorem typeIdOf_setSel (w : World) (i : Nat) (sd : Option SelectedUserData) (j : Nat) :
    (setSel w i sd).typeIdOf j = w.typeIdOf j := by
  unfold World.typeIdOf setSel
  by_cases hj : j = i
  · subst hj
    by_cases hm : j ∈ w.ids
    · rw [objData_update_self w _ hm]
    · rw [objData_update_not_mem w _ hm]
  · rw [objData_update_ne w _ hj]

theorem selData_setSel_ne (w : World) {i j : Nat} (sd : Option SelectedUserData) (h : j ≠ i) :
    (setSel w i sd).selData j = w.selData j := by
  unfold World.selData setSel
  rw [objData_update_ne w _ h]

theorem selData_setSel_self (w : World) {i : Nat} (sd : Option SelectedUserData)
    (h : i ∈ w.ids) : (setSel w i sd).selData i = sd := by
  unfold World.selData setSel
  rw [objData_update_self w _ h]

@[simp] theorem ids_setSel (w : World) (i : Nat) (sd : Option SelectedUserData) :
    (setSel w i sd).ids = w.ids := ids_update w i _

@[simp] theorem scene_setSel (w : World) (i : Nat) (sd : Option SelectedUserData) :
    (setSel w i sd).scene = w.scene := rfl

@[simp] theorem pos_setPl (w : World) (i : Nat) (pd : Option PlaceableUserData) (j : Nat) :
    (setPl w i pd).pos j = w.pos j := by
  unfold World.pos setPl
  by_cases hj : j = i
  · subst hj
    by_cases hm : j ∈ w.ids
    · rw [objData_update_self w _ hm]
    · rw [objData_update_not_mem w _ hm]
  · rw [objData_update_ne w _ hj]

@[simp] theorem rot_setPl (w : World) (i : Nat) (pd : Option PlaceableUserData) (j : Nat) :
    (setPl w i pd).rot j = w.rot j := by
  unfold World.rot setPl
  by_cases hj : j = i
  · subst hj
    by_cases hm : j ∈ w.ids
    · rw [objData_update_self w _ hm]
    · rw [objData_update_not_mem w _ hm]
  · rw [objData_update_ne w _ hj]

@[simp] theorem selData_setPl (w : World) (i : Nat) (pd : Option PlaceableUserData) (j : Nat) :
    (setPl w i pd).selData j = w.selData j := by
  unfold World.selData setPl
  by_cases hj : j = i
  · subst hj
    by_cases hm : j ∈ w.ids
    · rw [objData_update_self w _ hm]
    · rw [objData_update_not_mem w _ hm]
  · rw [objData_update_ne w _ hj]

@[simp] theorem typeIdOf_setPl (w : World) (i : Nat) (pd : Option PlaceableUserData) (j : Nat) :
    (setPl w i pd).typeIdOf j = w.typeIdOf j := by
  unfold World.typeIdOf setPl
  by_cases hj : j = i
  · subst hj
    by_cases hm : j ∈ w.ids
    · rw [objData_update_self w _ hm]
    · rw [objData_update_not_mem w _ hm]
  · rw [objData_update_ne w _ hj]

theorem plData_setPl_ne (w : World) {i j : Nat} (pd : Option PlaceableUserData) (h : j ≠ i) :
    (setPl w i pd).plData j = w.plData j := by
  unfold World.plData setPl
  rw [objData_update_ne w _ h]

theorem plData_setPl_self (w : World) {i : Nat} (pd : Option PlaceableUserData)
    (h : i ∈ w.ids) : (setPl w i pd).plData i = pd := by
  unfold World.plData setPl
  rw [objData_update_self w _ h]

@[simp] theorem ids_setPl (w : World) (i : Nat) (pd : Option PlaceableUserData) :
    (setPl w i pd).ids = w.ids := ids_update w i _

@[simp] theorem scene_setPl (w : World) (i : Nat) (pd : Option PlaceableUserData) :
    (setPl w i pd).scene = w.scene := rfl

@[simp] theorem objData_sceneRemove (w : World) (i j : Nat) :
    (sceneRemove w i).objData j = w.objData j := rfl

@[simp] theorem ids_sceneRemove (w : World) (i : Nat) :
    (sceneRemove w i).ids = w.ids := rfl

@[simp] theorem pos_sceneRemove (w : World) (i j : Nat) :
    (sceneRemove w i).pos j = w.pos j := rfl

@[simp] theorem selData_sceneRemove (w : World) (i j : Nat) :
    (sceneRemove w i).selData j = w.selData j := rfl

@[simp] theorem plData_sceneRemove (w : World) (i j : Nat) :
    (sceneRemove w i).plData j = w.plData j := rfl

@[simp] theorem typeIdOf_sceneRemove (w : World) (i j : Nat) :
    (sceneRemove w i).typeIdOf j = w.typeIdOf j := rfl

theorem plData_eq_dataOf (w : World) (p : Nat) :
    w.plData p = (dataOf w p).placeableData := rfl

theorem selData_eq_dataOf (w : World) (p : Nat) :
    w.selData p = (dataOf w p).selectableData := rfl

theorem typeIdOf_eq_dataOf (w : World) (p : Nat) :
    w.typeIdOf p = (dataOf w p).typeId := rfl

theorem childIds_congr {w₁ w₂ : World} {p : Nat} (h : w₁.plData p = w₂.plData p) :
    childIds w₁ p = childIds w₂ p := by
  unfold childIds
  rw [h]

theorem childOffs_congr {w₁ w₂ : World} {p : Nat} (h : w₁.plData p = w₂.plData p) :
    childOffs w₁ p = childOffs w₂ p := by
  unfold childOffs
  rw [h]

theorem placedOnOf_congr {w₁ w₂ : World} {o : Nat} (h : w₁.selData o = w₂.selData o) :
    placedOnOf w₁ o = placedOnOf w₂ o := by
  unfold placedOnOf
  rw [h]

@[simp] theorem childIds_setPos (w : World) (i : Nat) (v : V3) (p : Nat) :
    childIds (setPos w i v) p = childIds w p :=
  childIds_congr (by rw [plData_eq_dataOf, plData_eq_dataOf, dataOf_setPos])

@[simp] theorem childOffs_setPos (w : World) (i : Nat) (v : V3) (p : Nat) :
    childOffs (setPos w i v) p = childOffs w p :=
  childOffs_congr (by rw [plData_eq_dataOf, plData_eq_dataOf, dataOf_setPos])

@[simp] theorem childIds_setSel (w : World) (i : Nat) (sd : Option SelectedUserData) (p : Nat) :
    childIds (setSel w i sd) p = childIds w p := childIds_congr (plData_setSel w i sd p)

@[simp] theorem childOffs_setSel (w : World) (i : Nat) (sd : Option SelectedUserData) (p : Nat) :
    childOffs (setSel w i sd) p = childOffs w p := childOffs_congr (plData_setSel w i sd p)

@[simp] theorem placedOnOf_setPl (w : World) (i : Nat) (pd : Option PlaceableUserData) (o : Nat) :
    placedOnOf (setPl w i pd) o = placedOnOf w o := placedOnOf_congr (selData_setPl w i pd o)

@[simp] theorem childIds_sceneRemove (w : World) (i p : Nat) :
    childIds (sceneRemove w i) p = childIds w p := rfl

@[simp] theorem childOffs_sceneRemove (w : World) (i p : Nat) :
    childOffs (sceneRemove w i) p = childOffs w p := rfl

@[simp] theorem placedOnOf_sceneRemove (w : World) (i o : Nat) :
    placedOnOf (sceneRemove w i) o = placedOnOf w o := rfl

/-! ### Characterisation of attach and detach -/

theorem mem_ids_of_selData_some {w : World} {o : Nat} {sd : SelectedUserData}
    (h : w.selData o = some sd) : o ∈ w.ids := by
  by_contra hn
  have hl := @lookup_eq_none_of_not_mem w.entries o (by simpa [World.ids] using hn)
  unfold World.selData World.objData at h
  rw [hl] at h
  exact Option.noConfusion h

theorem mem_ids_of_plData_some {w : World} {p : Nat} {pd : PlaceableUserData}
    (h : w.plData p = some pd) : p ∈ w.ids := by
  by_contra hn
  have hl := @lookup_eq_none_of_not_mem w.entries p (by simpa [World.ids] using hn)
  unfold World.plData World.objData at h
  rw [hl] at h
  exact Option.noConfusion h

theorem mem_ids_of_edge {w : World} {p c : Nat} (h : Edge w p c) : p ∈ w.ids := by
  unfold Edge childIds at h
  cases hpd : w.plData p with
  | none => rw [hpd] at h; exact absurd h (List.not_mem_nil c)
  | some pd => exact mem_ids_of_plData_some hpd

@[simp] theorem selData_setPos (w : World) (i : Nat) (v : V3) (j : Nat) :
    (setPos w i v).selData j = w.selData j := by
  rw [selData_eq_dataOf, selData_eq_dataOf, dataOf_setPos]

@[simp] theorem plData_setPos (w : World) (i : Nat) (v : V3) (j : Nat) :
    (setPos w i v).plData j = w.plData j := by
  rw [plData_eq_dataOf, plData_eq_dataOf, dataOf_setPos]

@[simp] theorem typeIdOf_setPos (w : World) (i : Nat) (v : V3) (j : Nat) :
    (setPos w i v).typeIdOf j = w.typeIdOf j := by
  rw [typeIdOf_eq_dataOf, typeIdOf_eq_dataOf, dataOf_setPos]

@[simp] theorem selData_setRot (w : World) (i : Nat) (v : V3) (j : Nat) :
    (setRot w i v).selData j = w.selData j := by
  rw [selData_eq_dataOf, selData_eq_dataOf, dataOf_setRot]

@[simp] theorem plData_setRot (w : World) (i : Nat) (v : V3) (j : Nat) :
    (setRot w i v).plData j = w.plData j := by
  rw [plData_eq_dataOf, plData_eq_dataOf, dataOf_setRot]

@[simp] theorem typeIdOf_setRot (w : World) (i : Nat) (v : V3) (j : Nat) :
    (setRot w i v).typeIdOf j = w.typeIdOf j := by
  rw [typeIdOf_eq_dataOf, typeIdOf_eq_dataOf, dataOf_setRot]

theorem addObj_ok_spec {w w' : World} {host o : Nat}
    (h : addObjOnPlaceableObject w host o = .ok w') :
    ∃ sd pd, w.selData o = some sd ∧ sd.placedOn = none ∧ w.plData host = some pd ∧
      o ∈ w.ids ∧ host ∈ w.ids ∧
      w'.ids = w.ids ∧ w'.scene = w.scene ∧
      (∀ j, j ≠ o → w'.pos j = w.pos j) ∧
      w'.pos o = (⟨(w.pos o).x, (w.pos host).y, (w.pos o).z⟩ : V3)
        + sd.placeOffset + pd.placeOffset ∧
      (∀ j, w'.rot j = w.rot j) ∧
      (∀ j, j ≠ o → w'.selData j = w.selData j) ∧
      w'.selData o = some { sd with placedOn := some host } ∧
      (∀ j, j ≠ host → w'.plData j = w.plData j) ∧
      w'.plData host = some
        { pd with
          placedObject := pd.placedObject ++ [o],
          lastPlaceObjectPos := pd.lastPlaceObjectPos ++ [w'.pos o - w'.pos host] } := by
  unfold addObjOnPlaceableObject at h
  split at h
  · exact Except.noConfusion h
  · rename_i sd hsel
    split at h
    · exact Except.noConfusion h
    · rename_i hpo
      split at h
      · exact Except.noConfusion h
      · rename_i pd hpd
        simp only [Except.ok.injEq] at h
        subst h
        have hom : o ∈ w.ids := mem_ids_of_selData_some hsel
        have hhm : host ∈ w.ids := mem_ids_of_plData_some hpd
        refine ⟨sd, pd, hsel, hpo, hpd, hom, hhm, by simp, by simp, ?_, ?_, ?_, ?_, ?_, ?_, ?_⟩
        · intro j hj
          show (World.pos _ j) = w.pos j
          simp only [pos_setSel, pos_setPl]
          exact pos_setPos_ne w _ hj
        · show (World.pos _ o) = _
          simp only [pos_setSel, pos_setPl]
          exact pos_setPos_self w _ hom
        · intro j
          show (World.rot _ j) = w.rot j
          simp only [rot_setSel, rot_setPl, rot_setPos]
        · intro j hj
          show (World.selData _ j) = w.selData j
          rw [selData_setSel_ne _ _ hj]
          simp only [selData_setPl, selData_setPos]
        · show (World.selData _ o) = _
          rw [selData_setSel_self _ _ (by simpa using hom)]
        · intro j hj
          show (World.plData _ j) = w.plData j
          simp only [plData_setSel, plData_setPos]
          rw [plData_setPl_ne _ _ hj]
          simp only [plData_setPos]
        · show (World.plData _ host) = _
          simp only [plData_setSel]
          rw [plData_setPl_self _ _ (by simpa using hhm)]
          have h1 : ∀ sd2, (setSel (setPl (setPos w o
              ((⟨(w.pos o).x, (w.pos host).y, (w.pos o).z⟩ : V3) + sd.placeOffset + pd.placeOffset))
              host (some { pd with
                placedObject := pd.placedObject ++ [o],
                lastPlaceObjectPos := pd.lastPlaceObjectPos ++
                  [(setPos w o ((⟨(w.pos o).x, (w.pos host).y, (w.pos o).z⟩ : V3) + sd.placeOffset + pd.placeOffset)).pos o
                    - (setPos w o ((⟨(w.pos o).x, (w.pos host).y, (w.pos o).z⟩ : V3) + sd.placeOffset + pd.placeOffset)).pos host] }))
              o sd2).pos o
              = (setPos w o ((⟨(w.pos o).x, (w.pos host).y, (w.pos o).z⟩ : V3) + sd.placeOffset + pd.placeOffset)).pos o := by
            intro sd2
            simp only [pos_setSel, pos_setPl]
          have h2 : ∀ sd2, (setSel (setPl (setPos w o
              ((⟨(w.pos o).x, (w.pos host).y, (w.pos o).z⟩ : V3) + sd.placeOffset + pd.placeOffset))
              host (some { pd with
                placedObject := pd.placedObject ++ [o],
                lastPlaceObjectPos := pd.lastPlaceObjectPos ++
                  [(setPos w o ((⟨(w.pos o).x, (w.pos host).y, (w.pos o).z⟩ : V3) + sd.placeOffset + pd.placeOffset)).pos o
                    - (setPos w o ((⟨(w.pos o).x, (w.pos host).y, (w.pos o).z⟩ : V3) + sd.placeOffset + pd.placeOffset)).pos host] }))
              o sd2).pos host
              = (setPos w o ((⟨(w.pos o).x, (w.pos host).y, (w.pos o).z⟩ : V3) + sd.placeOffset + pd.placeOffset)).pos host := by
            intro sd2
            simp only [pos_setSel, pos_setPl]
          rw [h1, h2]

theorem addObj_ok_typeIdOf {w w' : World} {host o : Nat}
    (h : addObjOnPlaceableObject w host o = .ok w') :
    ∀ j, w'.typeIdOf j = w.typeIdOf j := by
  unfold addObjOnPlaceableObject at h
  split at h
  · exact Except.noConfusion h
  · split at h
    · exact Except.noConfusion h
    · split at h
      · exact Except.noConfusion h
      · simp only [Except.ok.injEq] at h
        subst h
        intro j
        show (World.typeIdOf _ j) = w.typeIdOf j
        simp only [typeIdOf_setSel, typeIdOf_setPl, typeIdOf_setPos]

theorem removeObj_ok_spec {w w' : World} {o : Nat}
    (h : removeObjOnPlaceableObject w o = .ok w') :
    ∃ sd, w.selData o = some sd ∧
      ((sd.placedOn = none ∧ w' = w) ∨
       ∃ host pd, sd.placedOn = some host ∧ w.plData host = some pd ∧
         o ∈ w.ids ∧ host ∈ w.ids ∧
         w'.ids = w.ids ∧ w'.scene = w.scene ∧
         (∀ j, w'.pos j = w.pos j) ∧ (∀ j, w'.rot j = w.rot j) ∧
         (∀ j, w'.typeIdOf j = w.typeIdOf j) ∧
         (∀ j, j ≠ o → w'.selData j = w.selData j) ∧
         w'.selData o = some { sd with placedOn := none } ∧
         (∀ j, j ≠ host → w'.plData j = w.plData j) ∧
         w'.plData host = some { pd with
           placedObject := pd.placedObject.eraseIdx (pd.placedObject.indexOf o),
           lastPlaceObjectPos := pd.lastPlaceObjectPos.eraseIdx (pd.placedObject.indexOf o) }) := by
  unfold removeObjOnPlaceableObject at h
  split at h
  · exact Except.noConfusion h
  · rename_i sd hsel
    split at h
    · rename_i hpo
      simp only [Except.ok.injEq] at h
      exact ⟨sd, hsel, Or.inl ⟨hpo, h.symm⟩⟩
    · rename_i host hpo
      split at h
      · exact Except.noConfusion h
      · rename_i pd hpd
        simp only [Except.ok.injEq] at h
        subst h
        have hom : o ∈ w.ids := mem_ids_of_selData_some hsel
        have hhm : host ∈ w.ids := mem_ids_of_plData_some hpd
        refine ⟨sd, hsel, Or.inr ⟨host, pd, hpo, hpd, hom, hhm, by simp, by simp,
          ?_, ?_, ?_, ?_, ?_, ?_, ?_⟩⟩
        · intro j
          show (World.pos _ j) = w.pos j
          simp only [pos_setSel, pos_setPl]
        · intro j
          show (World.rot _ j) = w.rot j
          simp only [rot_setSel, rot_setPl]
        · intro j
          show (World.typeIdOf _ j) = w.typeIdOf j
          simp only [typeIdOf_setSel, typeIdOf_setPl]
        · intro j hj
          show (World.selData _ j) = w.selData j
          rw [selData_setSel_ne _ _ hj]
          simp only [selData_setPl]
        · show (World.selData _ o) = _
          rw [selData_setSel_self _ _ (by simpa using hom)]
        · intro j hj
          show (World.plData _ j) = w.plData j
          simp only [plData_setSel]
          exact plData_setPl_ne _ _ hj
        · show (World.plData _ host) = _
          simp only [plData_setSel]
          exact plData_setPl_self _ _ (by simpa using hhm)

/-! ### Preservation of the well-formedness invariant -/

theorem childIds_eq {w : World} {p : Nat} {pd : PlaceableUserData}
    (hpd : w.plData p = some pd) : childIds w p = pd.placedObject := by
  unfold childIds
  rw [hpd]

theorem childOffs_eq {w : World} {p : Nat} {pd : PlaceableUserData}
    (hpd : w.plData p = some pd) : childOffs w p = pd.lastPlaceObjectPos := by
  unfold childOffs
  rw [hpd]

theorem placedOnOf_eq {w : World} {o : Nat} {sd : SelectedUserData}
    (hsel : w.selData o = some sd) : placedOnOf w o = sd.placedOn := by
  unfold placedOnOf
  rw [hsel]

theorem childIds_of_not_mem {w : World} {p : Nat} (h : p ∉ w.ids) :
    childIds w p = [] := by
  have hl := @lookup_eq_none_of_not_mem w.entries p (by simpa [World.ids] using h)
  unfold childIds World.plData World.objData
  rw [hl]
  rfl

theorem not_mem_children_of_placedOn_none {w : World} {o : Nat} (hwf : WF w)
    (hnone : placedOnOf w o = none) : ∀ p, o ∉ childIds w p := by
  intro p hmem
  by_cases hp : p ∈ w.ids
  · have hcpo := ((hwf.2.1 p hp).2.2 o hmem).2
    rw [hnone] at hcpo
    exact Option.noConfusion hcpo
  · rw [childIds_of_not_mem hp] at hmem
    exact absurd hmem (List.not_mem_nil o)

theorem WF_addObj {w w' : World} {host o : Nat} (hwf : WF w)
    (h : addObjOnPlaceableObject w host o = .ok w') : WF w' := by
  obtain ⟨sd, pd, hsel, hpo, hpd, hom, hhm, hids, hscene, hposne, hposo, hrot,
    hselne, hselo, hplne, hplhost⟩ := addObj_ok_spec h
  obtain ⟨hnd, hplace, hsok⟩ := hwf
  have hpnone : placedOnOf w o = none := by rw [placedOnOf_eq hsel, hpo]
  have hnotin : ∀ p, o ∉ childIds w p :=
    not_mem_children_of_placedOn_none ⟨hnd, hplace, hsok⟩ hpnone
  have hcw : ∀ p, p ≠ host → childIds w' p = childIds w p :=
    fun p hp => childIds_congr (hplne p hp)
  have how : ∀ p, p ≠ host → childOffs w' p = childOffs w p :=
    fun p hp => childOffs_congr (hplne p hp)
  have hchost : childIds w' host = childIds w host ++ [o] := by
    rw [childIds_eq hplhost, childIds_eq hpd]
  have hohost : childOffs w' host = childOffs w host ++ [w'.pos o - w'.pos host] := by
    rw [childOffs_eq hplhost, childOffs_eq hpd]
  have hpow : ∀ q, q ≠ o → placedOnOf w' q = placedOnOf w q :=
    fun q hq => placedOnOf_congr (hselne q hq)
  have hpoo : placedOnOf w' o = some host := by rw [placedOnOf_eq hselo]
  refine ⟨by rw [hids]; exact hnd, ?_, ?_⟩
  · intro p hp
    rw [hids] at hp
    by_cases hph : p = host
    · subst hph
      obtain ⟨hlen, hndp, hmem⟩ := hplace p hp
      refine ⟨?_, ?_, ?_⟩
      · rw [hchost, hohost]
        simp [hlen]
      · rw [hchost]
        rw [List.nodup_append]
        exact ⟨hndp, List.nodup_singleton o, by
          intro a ha hb
          rw [List.mem_singleton] at hb
          exact hnotin p (hb ▸ ha)⟩
      · intro c hc
        rw [hchost] at hc
        rcases List.mem_append.mp hc with hc | hc
        · obtain ⟨hcm, hcpo⟩ := hmem c hc
          have hco : c ≠ o := fun he => hnotin p (he ▸ hc)
          exact ⟨by rw [hids]; exact hcm, by rw [hpow c hco, hcpo]⟩
        · rw [List.mem_singleton] at hc
          subst hc
          exact ⟨by rw [hids]; exact hom, hpoo⟩
    · rw [hcw p hph, how p hph]
      obtain ⟨hlen, hndp, hmem⟩ := hplace p hp
      refine ⟨hlen, hndp, ?_⟩
      intro c hc
      obtain ⟨hcm, hcpo⟩ := hmem c hc
      have hco : c ≠ o := fun he => hnotin p (he ▸ hc)
      exact ⟨by rw [hids]; exact hcm, by rw [hpow c hco, hcpo]⟩
  · intro q hq
    rw [hids] at hq
    by_cases hqo : q = o
    · subst hqo
      right
      refine ⟨host, by rw [hids]; exact hhm, hpoo, ?_⟩
      rw [hchost]
      exact List.mem_append_right _ (List.mem_singleton.mpr rfl)
    · rcases hsok q hq with hn | ⟨h', hm', he', hcm'⟩
      · left
        rw [hpow q hqo, hn]
      · right
        refine ⟨h', by rw [hids]; exact hm', by rw [hpow q hqo]; exact he', ?_⟩
        by_cases hh : h' = host
        · subst hh
          rw [hchost]
          exact List.mem_append_left _ hcm'
        · rw [hcw h' hh]
          exact hcm'

theorem WF_removeObj {w w' : World} {o : Nat} (hwf : WF w)
    (h : removeObjOnPlaceableObject w o = .ok w') : WF w' := by
  obtain ⟨sd, hsel, hcase⟩ := removeObj_ok_spec h
  rcases hcase with ⟨hpo, rfl⟩ |
    ⟨host, pd, hpo, hpd, hom, hhm, hids, hscene, hpos, hrot, hty, hselne, hselo, hplne, hplhost⟩
  · exact hwf
  · obtain ⟨hnd, hplace, hsok⟩ := hwf
    have hpoww : placedOnOf w o = some host := by rw [placedOnOf_eq hsel, hpo]
    have homem : o ∈ childIds w host := by
      rcases hsok o hom with hn | ⟨h', hm', he', hcm'⟩
      · rw [hpoww] at hn
        exact Option.noConfusion hn
      · have heq : host = h' := Option.some.inj (hpoww.symm.trans he')
        rw [heq]
        exact hcm'
    have hcw : ∀ p, p ≠ host → childIds w' p = childIds w p :=
      fun p hp => childIds_congr (hplne p hp)
    have how : ∀ p, p ≠ host → childOffs w' p = childOffs w p :=
      fun p hp => childOffs_congr (hplne p hp)
    have hchost : childIds w' host = (childIds w host).erase o := by
      rw [childIds_eq hplhost, childIds_eq hpd]
      exact List.eraseIdx_indexOf_eq_erase o pd.placedObject
    have hohost : childOffs w' host =
        (childOffs w host).eraseIdx ((childIds w host).indexOf o) := by
      rw [childOffs_eq hplhost, childOffs_eq hpd, childIds_eq hpd]
    have hpow : ∀ q, q ≠ o → placedOnOf w' q = placedOnOf w q :=
      fun q hq => placedOnOf_congr (hselne q hq)
    have hpoo : placedOnOf w' o = none := by rw [placedOnOf_eq hselo]
    obtain ⟨hlenh, hndh, hmemh⟩ := hplace host hhm
    have hidx : (childIds w host).indexOf o < (childIds w host).length :=
      List.indexOf_lt_length.mpr homem
    refine ⟨by rw [hids]; exact hnd, ?_, ?_⟩
    · intro p hp
      rw [hids] at hp
      by_cases hph : p = host
      · subst hph
        refine ⟨?_, by rw [hchost]; exact hndh.erase o, ?_⟩
        · rw [hchost, hohost]
          rw [List.length_erase_of_mem homem,
            List.length_eraseIdx_of_lt (by rw [← hlenh]; exact hidx)]
          rw [hlenh]
        · intro c hc
          rw [hchost] at hc
          obtain ⟨hco, hcm⟩ := (hndh.mem_erase_iff).mp hc
          obtain ⟨hcm', hcpo⟩ := hmemh c hcm
          exact ⟨by rw [hids]; exact hcm', by rw [hpow c hco, hcpo]⟩
      · rw [hcw p hph, how p hph]
        obtain ⟨hlen, hndp, hmem⟩ := hplace p hp
        refine ⟨hlen, hndp, ?_⟩
        intro c hc
        obtain ⟨hcm, hcpo⟩ := hmem c hc
        have hco : c ≠ o := by
          intro he
          subst he
          rw [hpoww] at hcpo
          exact hph ((Option.some.inj hcpo).symm)
        exact ⟨by rw [hids]; exact hcm, by rw [hpow c hco, hcpo]⟩
    · intro q hq
      rw [hids] at hq
      by_cases hqo : q = o
      · subst hqo
        left
        exact hpoo
      · rcases hsok q hq with hn | ⟨h', hm', he', hcm'⟩
        · left
          rw [hpow q hqo, hn]
        · right
          refine ⟨h', by rw [hids]; exact hm', by rw [hpow q hqo]; exact he', ?_⟩
          by_cases hh : h' = host
          · subst hh
            rw [hchost]
            exact List.mem_erase_of_ne hqo |>.mpr hcm'
          · rw [hcw h' hh]
            exact hcm'

theorem WF_step {w w' : World} (hs : Step w w') (hwf : WF w) : WF w' := by
  cases hs with
  | attach h o w w' ha => exact WF_addObj hwf ha
  | detach o w w' hr => exact WF_removeObj hwf hr

/-! ### Claim theorems -/

/-- Claim C2: after every sequence of non-throwing attach
(`addObjOnPlaceableObject`) and detach (`removeObjOnPlaceableObject`) calls
from a well-formed state, each object's `placedOn` is either null with no
host's `placedObject` list containing the object, or points to exactly one
host whose list contains it exactly once (and no other host lists it), and
every host's `placedObject` and `lastPlaceObjectPos` lists have equal
length (staying index-aligned). -/
theorem claim2_single_parent_invariant {w w' : World} (hwf : WF w)
    (hreach : Relation.ReflTransGen Step w w') :
    WF w' ∧
    (∀ p ∈ w'.ids, (childIds w' p).length = (childOffs w' p).length) ∧
    ∀ o ∈ w'.ids,
      (placedOnOf w' o = none ∧ ∀ p ∈ w'.ids, o ∉ childIds w' p) ∨
      (∃ h ∈ w'.ids, placedOnOf w' o = some h ∧ (childIds w' h).count o = 1 ∧
        ∀ p ∈ w'.ids, p ≠ h → o ∉ childIds w' p) := by
  have hwf' : WF w' := by
    induction hreach with
    | refl => exact hwf
    | tail hab hstep ih => exact WF_step hstep ih
  refine ⟨hwf', fun p hp => (hwf'.2.1 p hp).1, ?_⟩
  intro o ho
  obtain ⟨hnd, hplace, hsok⟩ := hwf'
  rcases hsok o ho with hn | ⟨h, hm, he, hcm⟩
  · left
    refine ⟨hn, fun p hp hmem => ?_⟩
    have h2 := ((hplace p hp).2.2 o hmem).2
    rw [hn] at h2
    exact Option.noConfusion h2
  · right
    refine ⟨h, hm, he, List.count_eq_one_of_mem (hplace h hm).2.1 hcm, ?_⟩
    intro p hp hpe hmem
    have h2 := ((hplace p hp).2.2 o hmem).2
    rw [he] at h2
    exact hpe (Option.some.inj h2).symm

/-- Witness for C2 at a concrete input: attaching the knife to the table in
`wPair` preserves the invariant. -/
theorem claim2_witness :
    WF wPairAttached ∧
    (∀ p ∈ wPairAttached.ids,
      (childIds wPairAttached p).length = (childOffs wPairAttached p).length) ∧
    ∀ o ∈ wPairAttached.ids,
      (placedOnOf wPairAttached o = none ∧
        ∀ p ∈ wPairAttached.ids, o ∉ childIds wPairAttached p) ∨
      (∃ h ∈ wPairAttached.ids, placedOnOf wPairAttached o = some h ∧
        (childIds wPairAttached h).count o = 1 ∧
        ∀ p ∈ wPairAttached.ids, p ≠ h → o ∉ childIds wPairAttached p) :=
  claim2_single_parent_invariant (by decide)
    (Relation.ReflTransGen.single (Step.attach 0 1 wPair wPairAttached rfl))

/-- Claim C4: a successful attach relocates the object so that its new
position keeps its own x/z, takes the host's height and adds both place
offsets; in particular the new height is the host's height plus the
object's Selectable offset height plus the host's Placeable offset
height. -/
theorem claim4_attach_position {w w' : World} {host o : Nat}
    {sd : SelectedUserData} {pd : PlaceableUserData}
    (hsel : w.selData o = some sd) (hpd : w.plData host = some pd)
    (h : addObjOnPlaceableObject w host o = .ok w') :
    w'.pos o = (⟨(w.pos o).x, (w.pos host).y, (w.pos o).z⟩ : V3)
      + sd.placeOffset + pd.placeOffset ∧
    (w'.pos o).y = (w.pos host).y + sd.placeOffset.y + pd.placeOffset.y := by
  obtain ⟨sd', pd', hsel', hpo', hpd', _, _, _, _, _, hposo, _⟩ := addObj_ok_spec h
  rw [hsel] at hsel'
  injection hsel' with e1
  rw [hpd] at hpd'
  injection hpd' with e2
  subst e1
  subst e2
  refine ⟨hposo, ?_⟩
  rw [hposo]
  rfl

/-- Witness for C4 at the spec's concrete scenario: the knife (Selectable
offset height `0.085`) attached to a table (Placeable offset height
`0.0225`, at height `0.85`) ends at height `0.85 + 0.085 + 0.0225`;
re-attached to a second table at height `0.5` it ends at
`0.5 + 0.085 + 0.0225`. -/
theorem claim4_witness :
    (wPairAttached.pos 1).y
      = (wPair.pos 0).y + (⟨0, 0.085, 0⟩ : V3).y + (⟨0, 0.0225, 0⟩ : V3).y ∧
    (wPair2Attached.pos 1).y
      = (wPair2.pos 0).y + (⟨0, 0.085, 0⟩ : V3).y + (⟨0, 0.0225, 0⟩ : V3).y :=
  ⟨(@claim4_attach_position wPair wPairAttached 0 1 ⟨none, ⟨0, 0.085, 0⟩⟩
      ⟨⟨0, 0.0225, 0⟩, [], []⟩ rfl rfl rfl).2,
   (@claim4_attach_position wPair2 wPair2Attached 0 1 ⟨none, ⟨0, 0.085, 0⟩⟩
      ⟨⟨0, 0.0225, 0⟩, [], []⟩ rfl rfl rfl).2⟩

/-- Claim C9: attaching an object whose `placedOn` is already non-null
fails immediately with the "Cannot place object on another one again!"
error, for any host; the check precedes every mutation in source, so the
failing call returns no new world and all state is left unchanged. -/
theorem claim9_double_attach_fails {w : World} {host o p : Nat}
    (hp : placedOnOf w o = some p) :
    addObjOnPlaceableObject w host o
      = .error "Cannot place object on another one again!" := by
  cases hsel : w.selData o with
  | none =>
    have hnone : placedOnOf w o = none := by
      unfold placedOnOf
      rw [hsel]
    rw [hnone] at hp
    exact Option.noConfusion hp
  | some sd =>
    have hp' : sd.placedOn = some p := by
      rw [placedOnOf_eq hsel] at hp
      exact hp
    unfold addObjOnPlaceableObject
    simp only [hsel, hp']

/-- Witness for C9 at a concrete input: the knife in `wChain` sits on the
plate, so attaching it to the table fails with the double-attach error. -/
theorem claim9_witness :
    addObjOnPlaceableObject wChain 0 2
      = .error "Cannot place object on another one again!" :=
  @claim9_double_attach_fails wChain 0 2 1 rfl

/-- Unfolding of the source's per-recipe validity test into propositional
form: entry count (with multiplicity) against distinct attached types, plus
presence and minimum count per ingredient. -/
theorem recipeMatches_iff (types : List String) (r : RecipeData) :
    recipeMatches types r = true ↔
      (r.ingredients.length = types.dedup.length ∧
       ∀ ing ∈ r.ingredients,
         0 < types.count ing.typeId ∧ ing.minimumCount ≤ types.count ing.typeId) := by
  unfold recipeMatches
  simp [List.all_eq_true, Bool.and_eq_true, decide_eq_true_eq]

/-- Claim C1 (amended): for a recipe whose ingredient typeIds are pairwise
distinct — true of every recipe the repository registers — the source's
test agrees exactly with the spec's wording (distinct-required-type count
equals distinct-attached-type count, and every required type is present
with at least its minimum), and a match forces every attached type to be
one of the recipe's ingredient types (exact-set semantics).  In general the
source compares `recipe.ingredients.length`, the entry count WITH
multiplicity, not the distinct-type count (see the counterexample). -/
theorem claim1_exact_set_matching (w : World) (surface : Nat) (r : RecipeData)
    (hnd : (r.ingredients.map (fun ing => ing.typeId)).Nodup) :
    (recipeMatches (typesOn w surface) r = true ↔
      specRecipeMatches (typesOn w surface) r) ∧
    (recipeMatches (typesOn w surface) r = true →
      ∀ t ∈ typesOn w surface, t ∈ r.ingredients.map (fun ing => ing.typeId)) := by
  set types := typesOn w surface with htypes
  have hdedup : (r.ingredients.map (fun ing => ing.typeId)).dedup.length
      = r.ingredients.length := by
    rw [hnd.dedup, List.length_map]
  constructor
  · rw [recipeMatches_iff]
    unfold specRecipeMatches
    rw [hdedup]
  · intro hm t ht
    rw [recipeMatches_iff] at hm
    obtain ⟨hlen, hing⟩ := hm
    have hsub : (r.ingredients.map (fun ing => ing.typeId)).toFinset ⊆ types.toFinset := by
      intro a ha
      rw [List.mem_toFinset] at ha
      obtain ⟨ing, hmem, rfl⟩ := List.mem_map.mp ha
      rw [List.mem_toFinset]
      exact List.count_pos_iff.mp (hing ing hmem).1
    have hcard : types.toFinset.card ≤
        (r.ingredients.map (fun ing => ing.typeId)).toFinset.card := by
      rw [List.card_toFinset, List.card_toFinset, hdedup, ← hlen]
    have hfin := Finset.eq_of_subset_of_card_le hsub hcard
    have : t ∈ types.toFinset := List.mem_toFinset.mpr ht
    rw [← hfin] at this
    exact List.mem_toFinset.mp this

/-- Counterexample to C1 as stated: the recipe `[{A,≥1}, {A,≥1}]` (two
ingredient entries of the same type) matches the surface holding one "A"
and one "B" — `ingredients.length = 2` equals the distinct attached count —
even though it has only one distinct required type and "B" lies outside its
ingredient list, which the claim says must disqualify the match. -/
theorem claim1_counterexample :
    recipeMatches (typesOn wAB 0) recipeDup = true ∧
    ¬ specRecipeMatches (typesOn wAB 0) recipeDup ∧
    "B" ∈ typesOn wAB 0 ∧
    "B" ∉ recipeDup.ingredients.map (fun ing => ing.typeId) := by
  refine ⟨by decide, ?_, by decide, by decide⟩
  unfold specRecipeMatches
  decide

/-- Witness for the amended C1 at a concrete input: the fillet recipe
(one distinct required type) on the board holding two fillets — the source
test and the spec predicate agree, and the match keeps every attached type
inside the ingredient list. -/
theorem claim1_witness :
    (recipeMatches (typesOn wTwoChick 0) recipeChick = true ↔
      specRecipeMatches (typesOn wTwoChick 0) recipeChick) ∧
    (recipeMatches (typesOn wTwoChick 0) recipeChick = true →
      ∀ t ∈ typesOn wTwoChick 0, t ∈ recipeChick.ingredients.map (fun ing => ing.typeId)) :=
  claim1_exact_set_matching wTwoChick 0 recipeChick (by decide)

/-! ### The consuming phase of the recipe engine -/

theorem placedOnOf_some_elim {w : World} {o h : Nat} (hp : placedOnOf w o = some h) :
    ∃ sd, w.selData o = some sd ∧ sd.placedOn = some h := by
  unfold placedOnOf at hp
  cases hsel : w.selData o with
  | none =>
    rw [hsel] at hp
    exact Option.noConfusion hp
  | some sd =>
    rw [hsel] at hp
    exact ⟨sd, rfl, hp⟩

theorem WF_sceneRemove {w : World} {i : Nat} (hwf : WF w) : WF (sceneRemove w i) := hwf

theorem childIds_of_plData_none {w : World} {p : Nat} (h : w.plData p = none) :
    childIds w p = [] := by
  unfold childIds
  rw [h]

theorem removeOneOfType_spec {w : World} {surface : Nat} {t : String} (hwf : WF w) :
    ∃ w', removeOneOfType w surface t = .ok w' ∧ WF w' ∧
      (typesOn w' surface).count t = (typesOn w surface).count t - 1 ∧
      ∀ t', t' ≠ t → (typesOn w' surface).count t' = (typesOn w surface).count t' := by
  unfold removeOneOfType
  cases hfind : (childIds w surface).find? (fun c => w.typeIdOf c == t) with
  | none =>
    rw [List.find?_eq_none] at hfind
    have hz : (typesOn w surface).count t = 0 := by
      rw [List.count_eq_zero]
      intro hmem
      obtain ⟨c, hc, hct⟩ := List.mem_map.mp hmem
      exact hfind c hc (by simp [hct])
    exact ⟨w, rfl, hwf, by rw [hz], fun t' _ => rfl⟩
  | some c =>
    obtain ⟨hpc, as, bs, hsplit, has⟩ := List.find?_eq_some.mp hfind
    have hct : w.typeIdOf c = t := by simpa using hpc
    have hcmem : c ∈ childIds w surface := by
      rw [hsplit]
      exact List.mem_append_right _ (List.mem_cons_self c bs)
    rcases hpds : w.plData surface with _ | pd
    · rw [childIds_of_plData_none hpds] at hcmem
      exact absurd hcmem (List.not_mem_nil c)
    · have hsm : surface ∈ w.ids := mem_ids_of_plData_some hpds
      obtain ⟨hlen, hndl, hmeml⟩ := hwf.2.1 surface hsm
      have hpo : placedOnOf w c = some surface := (hmeml c hcmem).2
      obtain ⟨sd, hsel, hsdpo⟩ := placedOnOf_some_elim hpo
      obtain ⟨w', hrem⟩ : ∃ w', removeObjOnPlaceableObject (sceneRemove w c) c = .ok w' := by
        unfold removeObjOnPlaceableObject
        simp only [show (sceneRemove w c).selData c = w.selData c from rfl, hsel, hsdpo,
          show (sceneRemove w c).plData surface = w.plData surface from rfl, hpds]
        exact ⟨_, rfl⟩
      obtain ⟨sd', hsel', hcase⟩ := removeObj_ok_spec hrem
      rw [show (sceneRemove w c).selData c = w.selData c from rfl, hsel] at hsel'
      injection hsel' with hsd
      subst hsd
      rcases hcase with ⟨hn, _⟩ |
        ⟨host, pd', hpo', hpd', _, _, _, _, _, _, hty, _, _, _, hplh⟩
      · rw [hsdpo] at hn
        exact Option.noConfusion hn
      · have hhost : surface = host := by
          rw [hsdpo] at hpo'
          exact Option.some.inj hpo'
        subst hhost
        rw [show (sceneRemove w c).plData surface = w.plData surface from rfl, hpds] at hpd'
        injection hpd' with hpd2
        subst hpd2
        have hcw : childIds w' surface = (childIds w surface).erase c := by
          rw [childIds_eq hplh, childIds_eq hpds]
          exact List.eraseIdx_indexOf_eq_erase c pd.placedObject
        have hnotas : c ∉ as := by
          intro hmm
          have hx := has c hmm
          simp [hct] at hx
        have herase : (childIds w surface).erase c = as ++ bs := by
          rw [hsplit, List.erase_append_right (c :: bs) hnotas, List.erase_cons_head]
        have htys : typesOn w' surface = (as ++ bs).map (w.typeIdOf) := by
          unfold typesOn
          rw [hcw, herase]
          exact List.map_congr_left (fun a _ => by rw [hty a]; rfl)
        have htyw : typesOn w surface
            = (as.map w.typeIdOf) ++ w.typeIdOf c :: (bs.map w.typeIdOf) := by
          unfold typesOn
          rw [hsplit]
          simp
        refine ⟨w', hrem, WF_removeObj (WF_sceneRemove hwf) hrem, ?_, ?_⟩
        · rw [htys, htyw, List.map_append, hct]
          simp [List.count_append, List.count_cons]
        · intro t' ht'
          rw [htys, htyw, List.map_append, hct]
          simp [List.count_append, List.count_cons, ht']

theorem consumeIter_spec {surface : Nat} {t : String} (k : Nat) :
    ∀ {w : World}, WF w →
    ∃ w', (List.range k).foldlM (fun wacc _ => removeOneOfType wacc surface t) w = .ok w' ∧
      WF w' ∧
      (typesOn w' surface).count t = (typesOn w surface).count t - k ∧
      ∀ t', t' ≠ t → (typesOn w' surface).count t' = (typesOn w surface).count t' := by
  induction k with
  | zero =>
    intro w hwf
    exact ⟨w, rfl, hwf, by simp, fun t' _ => rfl⟩
  | succ n ih =>
    intro w hwf
    obtain ⟨w₁, hf1, hwf1, hc1, ho1⟩ := ih hwf
    obtain ⟨w', hr, hwf', hc2, ho2⟩ := @removeOneOfType_spec w₁ surface t hwf1
    refine ⟨w', ?_, hwf', ?_, ?_⟩
    · rw [List.range_succ, List.foldlM_append, hf1]
      show List.foldlM (fun wacc _ => removeOneOfType wacc surface t) w₁ [n] = .ok w'
      rw [List.foldlM_cons, hr]
      rfl
    · rw [hc2, hc1, Nat.sub_sub]
    · intro t' ht'
      rw [ho2 t' ht', ho1 t' ht']

theorem consumeAll_spec {surface : Nat} (ings : List IngredientData) :
    ∀ {w : World}, WF w →
    (ings.map (fun i => i.typeId)).Nodup →
    ∃ w', consumeAll w surface ings = .ok w' ∧ WF w' ∧
      (∀ ing ∈ ings,
        (typesOn w' surface).count ing.typeId
          = (typesOn w surface).count ing.typeId - ing.useCount) ∧
      (∀ t, t ∉ ings.map (fun i => i.typeId) →
        (typesOn w' surface).count t = (typesOn w surface).count t) := by
  induction ings with
  | nil =>
    intro w hwf _
    exact ⟨w, rfl, hwf, by simp, fun t _ => rfl⟩
  | cons ing rest ih =>
    intro w hwf hnd
    rw [List.map_cons, List.nodup_cons] at hnd
    obtain ⟨hni, hndr⟩ := hnd
    obtain ⟨w₁, hf1, hwf1, hc1, ho1⟩ := @consumeIter_spec surface ing.typeId ing.useCount w hwf
    obtain ⟨w', hf2, hwf', hc2, ho2⟩ := ih hwf1 hndr
    refine ⟨w', ?_, hwf', ?_, ?_⟩
    · unfold consumeAll at hf2 ⊢
      rw [List.foldlM_cons]
      show consumeIngredient w surface ing >>= _ = .ok w'
      unfold consumeIngredient
      rw [hf1]
      exact hf2
    · intro ing' hmem
      rcases List.mem_cons.mp hmem with rfl | hmem'
      · rw [ho2 ing'.typeId hni, hc1]
      · have hne : ing'.typeId ≠ ing.typeId := by
          intro he
          exact hni (he ▸ List.mem_map_of_mem (fun i => i.typeId) hmem')
        rw [hc2 ing' hmem', ho1 ing'.typeId hne]
    · intro u hu
      rw [List.map_cons, List.mem_cons] at hu
      push_neg at hu
      rw [ho2 u hu.2, ho1 u hu.1]

/-- Claim C5 (amended): when `runRecipeLogic`'s match-and-consume phase
fires a recipe whose ingredient typeIds are pairwise distinct, starting
from a well-formed surface, it removes exactly `min(useCount, attached
count)` instances of each ingredient's type — i.e. the remaining count is
the truncated difference `count - useCount` — and leaves the counts of all
other types untouched.  (The claim's "exactly useCount" holds whenever at
least `useCount` instances are attached, e.g. useCount 1 with 2 attached
leaves exactly 1; it fails when `useCount` exceeds the attached count,
which matching does not rule out since it only checks `minimumCount` —
see the counterexample.) -/
theorem claim5_consume_counts {w w' : World} {surface : Nat} {r : RecipeData}
    {rs : List RecipeData} (hwf : WF w)
    (hnd : (r.ingredients.map (fun i => i.typeId)).Nodup)
    (hrun : runRecipeConsume w surface rs = .ok (w', some r)) :
    WF w' ∧
    (∀ ing ∈ r.ingredients,
      (typesOn w' surface).count ing.typeId
        = (typesOn w surface).count ing.typeId - ing.useCount) ∧
    (∀ t, t ∉ r.ingredients.map (fun i => i.typeId) →
      (typesOn w' surface).count t = (typesOn w surface).count t) := by
  unfold runRecipeConsume at hrun
  split at hrun
  · simp only [Except.ok.injEq, Prod.mk.injEq] at hrun
    exact absurd hrun.2 (by simp)
  · rename_i r₀ hfind
    obtain ⟨w₁, hca, hwf₁, hc, ho⟩ := consumeAll_spec r₀.ingredients hwf (by
      have : r₀ = r := by
        rcases hcm : consumeAll w surface r₀.ingredients with e | wx
        · rw [hcm] at hrun
          exact Except.noConfusion hrun
        · rw [hcm] at hrun
          simp only [Except.map, Except.ok.injEq, Prod.mk.injEq] at hrun
          exact Option.some.inj hrun.2
      rw [this]
      exact hnd)
    rw [hca] at hrun
    simp only [Except.map, Except.ok.injEq, Prod.mk.injEq] at hrun
    obtain ⟨hw, hr⟩ := hrun
    have hre : r₀ = r := Option.some.inj hr
    subst hre
    subst hw
    exact ⟨hwf₁, hc, ho⟩

/-- Witness for the amended C5 at the spec's concrete scenario: the fillet
recipe (useCount 1) on a board holding two fillets consumes one and leaves
exactly one attached; types outside the recipe are untouched. -/
theorem claim5_witness :
    WF wTwoChickAfter ∧
    (∀ ing ∈ recipeChick.ingredients,
      (typesOn wTwoChickAfter 0).count ing.typeId
        = (typesOn wTwoChick 0).count ing.typeId - ing.useCount) ∧
    (∀ t, t ∉ recipeChick.ingredients.map (fun i => i.typeId) →
      (typesOn wTwoChickAfter 0).count t = (typesOn wTwoChick 0).count t) :=
  @claim5_consume_counts wTwoChick wTwoChickAfter 0 recipeChick [recipeChick]
    (by decide) (by decide) rfl

/-- Counterexample to C5 as stated: the recipe `{ayam-filet, min 1, use 2}`
matches a board holding a single fillet (matching checks only the minimum),
yet the consuming scan can remove only the one attached instance — 1, not
`useCount = 2`. -/
theorem claim5_counterexample :
    runRecipeConsume wOneChick 0 [recipeOver] = .ok (wOneChickAfter, some recipeOver) ∧
    (typesOn wOneChick 0).count "ayam-filet" = 1 ∧
    (typesOn wOneChickAfter 0).count "ayam-filet" = 0 ∧
    (typesOn wOneChick 0).count "ayam-filet"
      - (typesOn wOneChickAfter 0).count "ayam-filet" ≠ 2 := by
  refine ⟨rfl, by decide, by decide, by decide⟩

/-! ### Acyclicity of the attachment relation -/

theorem transGen_exists_first {r : Nat → Nat → Prop} {a b : Nat}
    (h : Relation.TransGen r a b) : ∃ c, r a c := by
  induction h with
  | single e => exact ⟨_, e⟩
  | tail h1 e ih => exact ih

theorem edge_iff_mem_edgesList {w : World} {p c : Nat} :
    Edge w p c ↔ (p, c) ∈ edgesList w := by
  constructor
  · intro h
    unfold edgesList
    rw [List.mem_flatten]
    exact ⟨(childIds w p).map (fun c => (p, c)),
      List.mem_map_of_mem _ (mem_ids_of_edge h),
      List.mem_map_of_mem _ h⟩
  · intro h
    unfold edgesList at h
    rw [List.mem_flatten] at h
    obtain ⟨l, hl, hm⟩ := h
    obtain ⟨q, hq, rfl⟩ := List.mem_map.mp hl
    obtain ⟨c', hc', he⟩ := List.mem_map.mp hm
    obtain ⟨rfl, rfl⟩ := Prod.mk.injEq _ _ _ _ ▸ he
    exact hc'

theorem acyclic_of_rank_list {w : World} (f : Nat → Nat)
    (hf : ∀ pr ∈ edgesList w, f pr.1 < f pr.2) : Acyclic w := by
  have hstep : ∀ a b, Edge w a b → f a < f b := by
    intro a b h
    exact hf (a, b) (edge_iff_mem_edgesList.mp h)
  intro x hx
  have hmono : ∀ a b, Relation.TransGen (Edge w) a b → f a < f b := by
    intro a b h
    induction h with
    | single e => exact hstep _ _ e
    | tail h1 e ih => exact lt_trans ih (hstep _ _ e)
  exact absurd (hmono x x hx) (lt_irrefl _)

theorem transGen_add_edge_decomp {r r' : Nat → Nat → Prop} {hh oo : Nat}
    (hrr : ∀ x y, r' x y ↔ (r x y ∨ (x = hh ∧ y = oo)))
    (hguard : ¬ Relation.ReflTransGen r oo hh) :
    ∀ {x y}, Relation.TransGen r' x y →
      Relation.TransGen r x y ∨
        (Relation.ReflTransGen r x hh ∧ Relation.ReflTransGen r oo y) := by
  intro x y h
  induction h with
  | single e =>
    rcases (hrr _ _).mp e with e' | ⟨rfl, rfl⟩
    · exact Or.inl (Relation.TransGen.single e')
    · exact Or.inr ⟨Relation.ReflTransGen.refl, Relation.ReflTransGen.refl⟩
  | tail h1 e ih =>
    rcases (hrr _ _).mp e with e' | ⟨rfl, rfl⟩
    · rcases ih with h' | ⟨hxh, hoy⟩
      · exact Or.inl (h'.tail e')
      · exact Or.inr ⟨hxh, hoy.tail e'⟩
    · rcases ih with h' | ⟨hxh, hob⟩
      · exact Or.inr ⟨h'.to_reflTransGen, Relation.ReflTransGen.refl⟩
      · exact absurd hob hguard

theorem acyclic_add_edge {r r' : Nat → Nat → Prop} {hh oo : Nat}
    (hrr : ∀ x y, r' x y ↔ (r x y ∨ (x = hh ∧ y = oo)))
    (hguard : ¬ Relation.ReflTransGen r oo hh)
    (hac : ∀ x, ¬ Relation.TransGen r x x) :
    ∀ x, ¬ Relation.TransGen r' x x := by
  intro x hx
  rcases transGen_add_edge_decomp hrr hguard hx with h | ⟨hxh, hox⟩
  · exact hac x h
  · exact hguard (hox.trans hxh)

theorem acyclic_GStep {w w' : World} (hs : GStep w w') (hac : Acyclic w) : Acyclic w' := by
  cases hs with
  | attach h o w w' hne hg ha =>
    obtain ⟨sd, pd, hsel, hpo, hpd, _, _, _, _, _, _, _, _, _, hplne, hplhost⟩ :=
      addObj_ok_spec ha
    have hrr : ∀ x y, Edge w' x y ↔ (Edge w x y ∨ (x = h ∧ y = o)) := by
      intro x y
      by_cases hx : x = h
      · subst hx
        unfold Edge
        rw [childIds_eq hplhost, childIds_eq hpd]
        simp
      · unfold Edge
        rw [childIds_congr (hplne x hx)]
        simp [hx]
    have hguard : ¬ Relation.ReflTransGen (Edge w) o h := by
      intro hrt
      rcases Relation.reflTransGen_iff_eq_or_transGen.mp hrt with he | htg
      · exact hne he
      · exact hg htg
    exact acyclic_add_edge hrr hguard hac
  | detach o w w' hr =>
    obtain ⟨sd, hsel, hcase⟩ := removeObj_ok_spec hr
    rcases hcase with ⟨hpo, rfl⟩ |
      ⟨host, pd, hpo, hpd, _, _, _, _, _, _, _, _, _, hplne, hplhost⟩
    · exact hac
    · have hsub : ∀ x y, Edge w' x y → Edge w x y := by
        intro x y he
        by_cases hx : x = host
        · subst hx
          unfold Edge at he ⊢
          rw [childIds_eq hplhost] at he
          rw [childIds_eq hpd]
          rw [List.eraseIdx_indexOf_eq_erase] at he
          exact List.mem_of_mem_erase he
        · unfold Edge at he ⊢
          rw [childIds_congr (hplne x hx)] at he
          exact he
      intro x hx
      exact hac x (Relation.TransGen.mono hsub hx)

/-- Claim C3 (amended): `addObjOnPlaceableObject` itself never checks for
cycles — the protection lives in `checkRaycast`'s candidate filtering, which
refuses the dragged object itself and every member of `getAllChildsSet` of
the dragged object.  For attach calls restricted by exactly that guard
(`GStep`), together with arbitrary detaches, acyclicity of the attachment
relation is preserved from any acyclic state.  Unrestricted non-throwing
attach sequences can create cycles (see the counterexample). -/
theorem claim3_guarded_acyclic {w w' : World} (hac : Acyclic w)
    (hreach : Relation.ReflTransGen GStep w w') : Acyclic w' := by
  induction hreach with
  | refl => exact hac
  | tail hab hstep ih => exact acyclic_GStep hstep ih

/-- Counterexample to C3 as stated: from a world holding a single
Placeable+Selectable object (like the repository's plate) attached to
nothing, the single non-throwing call
`addObjOnPlaceableObject(piring, piring)` makes the object a child of
itself — the attachment relation now has a cycle, i.e. the object lies in
its own descendant set (and `getAllChildsSet` would recurse forever on
it). -/
theorem claim3_counterexample :
    addObjOnPlaceableObject wSelfLoop 0 0 = .ok wSelfLoopCyc ∧
    Relation.TransGen (Edge wSelfLoopCyc) 0 0 := by
  refine ⟨rfl, Relation.TransGen.single ?_⟩
  show (0 : Nat) ∈ childIds wSelfLoopCyc 0
  decide

/-- Witness for the amended C3 at a concrete input: attaching the knife to
the table under the drag-controller guard keeps the relation acyclic. -/
theorem claim3_witness : Acyclic wPairAttached := by
  have hac : Acyclic wPair := acyclic_of_rank_list id (by decide)
  have hguard : ¬ Relation.TransGen (Edge wPair) 1 0 := by
    intro htg
    obtain ⟨c, hc⟩ := transGen_exists_first htg
    unfold Edge at hc
    rw [show childIds wPair 1 = [] from rfl] at hc
    exact absurd hc (List.not_mem_nil c)
  exact claim3_guarded_acyclic hac
    (Relation.ReflTransGen.single (GStep.attach 0 1 wPair wPairAttached (by decide) hguard rfl))

/-! ### Soundness of the descendant-set computation -/

theorem childsFold_sub {n : Nat} {w : World} :
    ∀ (l : List Nat) (acc s : List Nat),
      l.foldlM (fun acc c => (getAllChildsSetF n w c).map (fun cs => acc ++ c :: cs)) acc
        = some s →
      ∀ c ∈ l, ∃ cs, getAllChildsSetF n w c = some cs := by
  intro l
  induction l with
  | nil =>
    intro acc s h c hc
    exact absurd hc (List.not_mem_nil c)
  | cons c0 rest ih =>
    intro acc s h c hc
    rw [List.foldlM_cons] at h
    cases hc0 : getAllChildsSetF n w c0 with
    | none =>
      rw [hc0] at h
      exact Option.noConfusion h
    | some cs0 =>
      rw [hc0] at h
      rcases List.mem_cons.mp hc with rfl | hc'
      · exact ⟨cs0, hc0⟩
      · exact ih _ _ h c hc'

theorem childsFold_mem {n : Nat} {w : World} :
    ∀ (l : List Nat) (acc s : List Nat),
      l.foldlM (fun acc c => (getAllChildsSetF n w c).map (fun cs => acc ++ c :: cs)) acc
        = some s →
      ∀ y, y ∈ s ↔
        (y ∈ acc ∨ ∃ c ∈ l, ∃ cs, getAllChildsSetF n w c = some cs ∧ (y = c ∨ y ∈ cs)) := by
  intro l
  induction l with
  | nil =>
    intro acc s h y
    have h2 : acc = s := Option.some.inj h
    subst h2
    simp
  | cons c0 rest ih =>
    intro acc s h y
    rw [List.foldlM_cons] at h
    cases hc0 : getAllChildsSetF n w c0 with
    | none =>
      rw [hc0] at h
      exact Option.noConfusion h
    | some cs0 =>
      rw [hc0] at h
      have h' := ih (acc ++ c0 :: cs0) s h y
      rw [h']
      constructor
      · rintro (hy | ⟨c, hcm, cs, hcs, hor⟩)
        · rcases List.mem_append.mp hy with hy | hy
          · exact Or.inl hy
          · rcases List.mem_cons.mp hy with hyc | hy
            · exact Or.inr ⟨c0, List.mem_cons_self _ _, cs0, hc0, Or.inl hyc⟩
            · exact Or.inr ⟨c0, List.mem_cons_self _ _, cs0, hc0, Or.inr hy⟩
        · exact Or.inr ⟨c, List.mem_cons_of_mem _ hcm, cs, hcs, hor⟩
      · rintro (hy | ⟨c, hcm, cs, hcs, hor⟩)
        · exact Or.inl (List.mem_append_left _ hy)
        · rcases List.mem_cons.mp hcm with hcc | hcm'
          · rw [hcc, hc0] at hcs
            injection hcs with hcs2
            subst hcs2
            rcases hor with rfl | hy
            · rw [hcc]
              exact Or.inl (List.mem_append_right _ (List.mem_cons_self _ _))
            · exact Or.inl (List.mem_append_right _ (List.mem_cons_of_mem _ hy))
          · exact Or.inr ⟨c, hcm', cs, hcs, hor⟩

theorem getAllChildsSetF_mem {n : Nat} :
    ∀ {w : World} {x : Nat} {s : List Nat}, getAllChildsSetF n w x = some s →
      ∀ y, y ∈ s ↔ Relation.TransGen (Edge w) x y := by
  induction n with
  | zero =>
    intro w x s h
    exact Option.noConfusion h
  | succ n ih =>
    intro w x s h y
    unfold getAllChildsSetF at h
    split at h
    · rename_i hpd
      simp only [Option.some.injEq] at h
      subst h
      simp only [List.not_mem_nil, false_iff]
      intro htg
      obtain ⟨c, hc⟩ := transGen_exists_first htg
      unfold Edge at hc
      rw [childIds_of_plData_none hpd] at hc
      exact absurd hc (List.not_mem_nil c)
    · rename_i pd hpd
      rw [childsFold_mem pd.placedObject [] s h y]
      simp only [List.not_mem_nil, false_or]
      constructor
      · rintro ⟨c, hcm, cs, hcs, hor⟩
        have hedge : Edge w x c := by
          unfold Edge
          rw [childIds_eq hpd]
          exact hcm
        rcases hor with rfl | hy
        · exact Relation.TransGen.single hedge
        · exact Relation.TransGen.head' hedge ((ih hcs y).mp hy).to_reflTransGen
      · intro htg
        rcases Relation.TransGen.head'_iff.mp htg with ⟨c, hedge, hrt⟩
        have hcm : c ∈ pd.placedObject := by
          unfold Edge at hedge
          rw [childIds_eq hpd] at hedge
          exact hedge
        obtain ⟨cs, hcs⟩ := childsFold_sub pd.placedObject [] s h c hcm
        rcases Relation.reflTransGen_iff_eq_or_transGen.mp hrt with heq | htg'
        · exact ⟨c, hcm, cs, hcs, Or.inl heq⟩
        · exact ⟨c, hcm, cs, hcs, Or.inr ((ih hcs y).mpr htg')⟩

theorem hitEligible_iff {w : World} {fuel dragged : Nat} {ig : List Nat}
    (hig : getAllChildsSetF fuel w dragged = some ig) (h : Hit) :
    hitEligible ig dragged h = true ↔
      (h.dist ≤ 2 ∧ h.objId ≠ dragged ∧
        ¬ Relation.TransGen (Edge w) dragged h.objId) := by
  unfold hitEligible
  simp only [Bool.and_eq_true, Bool.not_eq_true', decide_eq_false_iff_not, not_lt,
    beq_eq_false_iff_ne, ne_eq, List.contains_eq_any_beq]
  constructor
  · rintro ⟨⟨hd, hne⟩, hcon⟩
    refine ⟨hd, hne, fun htg => ?_⟩
    have hmem : h.objId ∈ ig := (getAllChildsSetF_mem hig h.objId).mpr htg
    have hany : (ig.any fun x => h.objId == x) = true :=
      List.any_eq_true.mpr ⟨h.objId, hmem, by simp⟩
    rw [hany] at hcon
    exact Bool.noConfusion hcon
  · rintro ⟨hd, hne, hnd⟩
    refine ⟨⟨hd, hne⟩, ?_⟩
    cases hany : (ig.any fun x => h.objId == x) with
    | false => rfl
    | true =>
      obtain ⟨a, ha, hb⟩ := List.any_eq_true.mp hany
      have heq : h.objId = a := by simpa using hb
      subst heq
      exact absurd ((getAllChildsSetF_mem hig _).mp ha) hnd

/-- Claim C7: while dragging, whatever the raycast returns, the placement
candidate computed by `checkRaycast` is never the dragged object and never a
member of its descendant set; the candidate is the first hit in ray order
that is within range (distance at most 2), is not the dragged object and is
not a descendant; and when every hit is out of range or excluded the
candidate is none. -/
theorem claim7_candidate_safety {w : World} {fuel dragged : Nat} {hits : List Hit}
    {res : Option Nat}
    (hres : checkPlacementCandidate w fuel dragged hits = some res) :
    (∀ c, res = some c → c ≠ dragged ∧ ¬ Relation.TransGen (Edge w) dragged c) ∧
    (∀ c, res = some c → ∃ l1 hit l2, hits = l1 ++ hit :: l2 ∧ hit.objId = c ∧
      (hit.dist ≤ 2 ∧ hit.objId ≠ dragged ∧
        ¬ Relation.TransGen (Edge w) dragged hit.objId) ∧
      ∀ h' ∈ l1, ¬(h'.dist ≤ 2 ∧ h'.objId ≠ dragged ∧
        ¬ Relation.TransGen (Edge w) dragged h'.objId)) ∧
    ((∀ h' ∈ hits, ¬(h'.dist ≤ 2 ∧ h'.objId ≠ dragged ∧
        ¬ Relation.TransGen (Edge w) dragged h'.objId)) → res = none) := by
  unfold checkPlacementCandidate at hres
  split at hres
  · exact Option.noConfusion hres
  · rename_i ig hig
    injection hres with hres
    subst hres
    refine ⟨?_, ?_, ?_⟩
    · intro c hc
      rcases hfind : hits.find? (hitEligible ig dragged) with _ | hit
      · rw [hfind] at hc
        exact Option.noConfusion hc
      · rw [hfind] at hc
        simp only [Option.map_some'] at hc
        have hel := List.find?_some hfind
        rw [hitEligible_iff hig] at hel
        injection hc with hc
        subst hc
        exact ⟨hel.2.1, hel.2.2⟩
    · intro c hc
      rcases hfind : hits.find? (hitEligible ig dragged) with _ | hit
      · rw [hfind] at hc
        exact Option.noConfusion hc
      · rw [hfind] at hc
        simp only [Option.map_some'] at hc
        injection hc with hc
        obtain ⟨hel, l1, l2, hsplit, hbefore⟩ := List.find?_eq_some.mp hfind
        refine ⟨l1, hit, l2, hsplit, hc, ?_, ?_⟩
        · rw [← hitEligible_iff hig]
          exact hel
        · intro h' hm hprop
          have hb := hbefore h' hm
          rw [← hitEligible_iff hig h'] at hprop
          rw [hprop] at hb
          exact Bool.noConfusion hb
    · intro hall
      have hnone : hits.find? (hitEligible ig dragged) = none := by
        rw [List.find?_eq_none]
        intro x hx hel
        exact hall x hx ((hitEligible_iff hig x).mp hel)
      rw [hnone]
      rfl

/-- Witness for C7 at a concrete input: dragging the plate (id 1, which
carries the knife, id 2) in `wChain` with hits resolving, in ray order, to
the plate itself, the knife and the table (all in range) — the candidate is
the table (first remaining hit), which is neither the dragged object nor
one of its descendants. -/
theorem claim7_witness :
    (0 : Nat) ≠ 1 ∧ ¬ Relation.TransGen (Edge wChain) 1 0 :=
  (claim7_candidate_safety
    (show checkPlacementCandidate wChain 3 1 [⟨1, 1⟩, ⟨2, 1⟩, ⟨0, 1⟩]
        = some (some 0) by decide)).1 0 rfl

/-! ### Position propagation: data preservation and frame -/

theorem childIds_eq_of_dataOf {w₁ w₂ : World} (hd : ∀ j, dataOf w₁ j = dataOf w₂ j)
    (p : Nat) : childIds w₁ p = childIds w₂ p :=
  childIds_congr (by rw [plData_eq_dataOf, plData_eq_dataOf, hd p])

theorem childOffs_eq_of_dataOf {w₁ w₂ : World} (hd : ∀ j, dataOf w₁ j = dataOf w₂ j)
    (p : Nat) : childOffs w₁ p = childOffs w₂ p :=
  childOffs_congr (by rw [plData_eq_dataOf, plData_eq_dataOf, hd p])

theorem edge_iff_of_dataOf {w₁ w₂ : World} (hd : ∀ j, dataOf w₁ j = dataOf w₂ j)
    (a b : Nat) : Edge w₁ a b ↔ Edge w₂ a b := by
  unfold Edge
  rw [childIds_eq_of_dataOf hd]

theorem transGen_iff_of_dataOf {w₁ w₂ : World} (hd : ∀ j, dataOf w₁ j = dataOf w₂ j)
    {a b : Nat} :
    Relation.TransGen (Edge w₁) a b ↔ Relation.TransGen (Edge w₂) a b :=
  ⟨Relation.TransGen.mono (fun a b => (edge_iff_of_dataOf hd a b).mp),
   Relation.TransGen.mono (fun a b => (edge_iff_of_dataOf hd a b).mpr)⟩

theorem reflTransGen_iff_of_dataOf {w₁ w₂ : World} (hd : ∀ j, dataOf w₁ j = dataOf w₂ j)
    {a b : Nat} :
    Relation.ReflTransGen (Edge w₁) a b ↔ Relation.ReflTransGen (Edge w₂) a b :=
  ⟨Relation.ReflTransGen.mono (fun a b => (edge_iff_of_dataOf hd a b).mp),
   Relation.ReflTransGen.mono (fun a b => (edge_iff_of_dataOf hd a b).mpr)⟩

theorem recUpdateF_shape {n : Nat} :
    ∀ {w w' : World} {x : Nat}, recUpdateF n w x = some w' →
      (∀ j, dataOf w' j = dataOf w j) ∧ (∀ j, w'.rot j = w.rot j) ∧
      w'.ids = w.ids ∧ w'.scene = w.scene := by
  induction n with
  | zero =>
    intro w w' x h
    exact Option.noConfusion h
  | succ n ih =>
    intro w w' x h
    unfold recUpdateF at h
    split at h
    · injection h with h
      subst h
      exact ⟨fun j => rfl, fun j => rfl, rfl, rfl⟩
    · rename_i pd hpd
      have haux : ∀ (l : List (Nat × V3)) (wa wb : World),
          l.foldlM (fun wacc p => recUpdateF n (setPos wacc p.1 (wacc.pos x + p.2)) p.1) wa
            = some wb →
          (∀ j, dataOf wb j = dataOf wa j) ∧ (∀ j, wb.rot j = wa.rot j) ∧
          wb.ids = wa.ids ∧ wb.scene = wa.scene := by
        intro l
        induction l with
        | nil =>
          intro wa wb hf
          have h2 : wa = wb := Option.some.inj hf
          subst h2
          exact ⟨fun j => rfl, fun j => rfl, rfl, rfl⟩
        | cons p rest ihl =>
          intro wa wb hf
          rw [List.foldlM_cons] at hf
          cases hr : recUpdateF n (setPos wa p.1 (wa.pos x + p.2)) p.1 with
          | none =>
            rw [hr] at hf
            exact Option.noConfusion hf
          | some wc =>
            rw [hr] at hf
            obtain ⟨hd1, hr1, hi1, hs1⟩ := ih hr
            obtain ⟨hd2, hr2, hi2, hs2⟩ := ihl wc wb hf
            refine ⟨fun j => ?_, fun j => ?_, ?_, ?_⟩
            · rw [hd2 j, hd1 j, dataOf_setPos]
            · rw [hr2 j, hr1 j, rot_setPos]
            · rw [hi2, hi1, ids_setPos]
            · rw [hs2, hs1, scene_setPos]
      exact haux _ w w' h

theorem recUpdateF_frame {n : Nat} :
    ∀ {w w' : World} {x : Nat}, recUpdateF n w x = some w' →
      ∀ y, ¬ Relation.TransGen (Edge w) x y → w'.pos y = w.pos y := by
  induction n with
  | zero =>
    intro w w' x h
    exact Option.noConfusion h
  | succ n ih =>
    intro w w' x h
    unfold recUpdateF at h
    split at h
    · injection h with h
      subst h
      exact fun y _ => rfl
    · rename_i pd hpd
      have haux : ∀ (l : List (Nat × V3)) (wa wb : World),
          (∀ pr ∈ l, Edge w x pr.1) →
          (∀ j, dataOf wa j = dataOf w j) →
          l.foldlM (fun wacc p => recUpdateF n (setPos wacc p.1 (wacc.pos x + p.2)) p.1) wa
            = some wb →
          ∀ y, ¬ Relation.TransGen (Edge w) x y → wb.pos y = wa.pos y := by
        intro l
        induction l with
        | nil =>
          intro wa wb _ _ hf y _
          have h2 : wa = wb := Option.some.inj hf
          subst h2
          rfl
        | cons p rest ihl =>
          intro wa wb hedges hdata hf y hny
          rw [List.foldlM_cons] at hf
          cases hr : recUpdateF n (setPos wa p.1 (wa.pos x + p.2)) p.1 with
          | none =>
            rw [hr] at hf
            exact Option.noConfusion hf
          | some wc =>
            rw [hr] at hf
            have hedge : Edge w x p.1 := hedges p (List.mem_cons_self _ _)
            have hdata1 : ∀ j, dataOf (setPos wa p.1 (wa.pos x + p.2)) j = dataOf w j := by
              intro j
              rw [dataOf_setPos, hdata j]
            have hdatac : ∀ j, dataOf wc j = dataOf w j := by
              intro j
              rw [(recUpdateF_shape hr).1 j, hdata1 j]
            have hstep := ihl wc wb (fun pr hm => hedges pr (List.mem_cons_of_mem _ hm))
              hdatac hf y hny
            have hyp1 : y ≠ p.1 := by
              intro he
              exact hny (he ▸ Relation.TransGen.single hedge)
            have hnc : ¬ Relation.TransGen (Edge (setPos wa p.1 (wa.pos x + p.2))) p.1 y := by
              intro htg
              exact hny (Relation.TransGen.head' hedge
                ((transGen_iff_of_dataOf hdata1).mp htg).to_reflTransGen)
            rw [hstep, ih hr y hnc, pos_setPos_ne wa _ hyp1]
      exact haux _ w w'
        (by
          intro pr hm
          unfold Edge
          rw [childIds_eq hpd]
          exact (List.of_mem_zip hm).1)
        (fun j => rfl) h

/-! ### Unique parents and disjoint sibling subtrees -/

theorem WF_unique_parent {w : World} (hwf : WF w) :
    ∀ p p' c, Edge w p c → Edge w p' c → p = p' := by
  intro p p' c h1 h2
  have hp := mem_ids_of_edge h1
  have hp' := mem_ids_of_edge h2
  have e1 := ((hwf.2.1 p hp).2.2 c h1).2
  have e2 := ((hwf.2.1 p' hp').2.2 c h2).2
  rw [e1] at e2
  exact Option.some.inj e2

theorem WF_children_nodup {w : World} (hwf : WF w) :
    ∀ p, (childIds w p).Nodup := by
  intro p
  by_cases hp : p ∈ w.ids
  · exact (hwf.2.1 p hp).2.1
  · rw [childIds_of_not_mem hp]
    exact List.nodup_nil

theorem childOffs_of_not_mem {w : World} {p : Nat} (h : p ∉ w.ids) :
    childOffs w p = [] := by
  have hl := @lookup_eq_none_of_not_mem w.entries p (by simpa [World.ids] using h)
  unfold childOffs World.plData World.objData
  rw [hl]
  rfl

theorem WF_children_len {w : World} (hwf : WF w) :
    ∀ p, (childIds w p).length = (childOffs w p).length := by
  intro p
  by_cases hp : p ∈ w.ids
  · exact (hwf.2.1 p hp).1
  · rw [childIds_of_not_mem hp, childOffs_of_not_mem hp]
    rfl

theorem WF_children_mem {w : World} (hwf : WF w) :
    ∀ p c, Edge w p c → c ∈ w.ids := by
  intro p c h
  exact ((hwf.2.1 p (mem_ids_of_edge h)).2.2 c h).1

theorem reach_comparable {w : World}
    (hUP : ∀ p p' c, Edge w p c → Edge w p' c → p = p') :
    ∀ {c y}, Relation.ReflTransGen (Edge w) c y →
      ∀ {c'}, Relation.ReflTransGen (Edge w) c' y →
        Relation.ReflTransGen (Edge w) c c' ∨ Relation.ReflTransGen (Edge w) c' c := by
  intro c y h
  induction h with
  | refl =>
    intro c' h'
    exact Or.inr h'
  | tail hcb e ih =>
    intro c' h'
    rcases Relation.ReflTransGen.cases_tail h' with heq | ⟨p, hcp, ep⟩
    · exact Or.inl (heq ▸ (hcb.tail e))
    · have hpb := hUP p _ _ ep e
      subst hpb
      exact ih hcp

theorem not_reach_parent {w : World} (hAC : Acyclic w) {x c : Nat} (hc : Edge w x c) :
    ¬ Relation.ReflTransGen (Edge w) c x :=
  fun h => hAC x (Relation.TransGen.head' hc h)

theorem siblings_disjoint {w : World}
    (hUP : ∀ p p' c, Edge w p c → Edge w p' c → p = p') (hAC : Acyclic w)
    {x c c' : Nat} (hc : Edge w x c) (hc' : Edge w x c') (hne : c ≠ c') :
    ∀ y, Relation.ReflTransGen (Edge w) c y → ¬ Relation.ReflTransGen (Edge w) c' y := by
  have key : ∀ a b, Edge w x a → Edge w x b → a ≠ b →
      Relation.ReflTransGen (Edge w) a b → False := by
    intro a b ha hb hab hrt
    rcases Relation.ReflTransGen.cases_tail hrt with heq | ⟨p, hap, ep⟩
    · exact hab heq.symm
    · have hpx := hUP p x b ep hb
      subst hpx
      exact not_reach_parent hAC ha hap
  intro y h1 h2
  rcases reach_comparable hUP h1 h2 with h | h
  · exact key c c' hc hc' hne h
  · exact key c' c hc' hc (Ne.symm hne) h

theorem recUpdateF_correct {n : Nat} :
    ∀ {w w' : World} {x : Nat},
      (∀ p p' c, Edge w p c → Edge w p' c → p = p') →
      (∀ p, (childIds w p).Nodup) →
      (∀ p, (childIds w p).length = (childOffs w p).length) →
      Acyclic w →
      (∀ p c, Edge w p c → c ∈ w.ids) →
      recUpdateF n w x = some w' →
      ∀ y, Relation.ReflTransGen (Edge w) x y → ChildrenOk w' y := by
  induction n with
  | zero =>
    intro w w' x _ _ _ _ _ h
    exact Option.noConfusion h
  | succ n ih =>
    intro w w' x hUP hND hLEN hAC hCL h
    unfold recUpdateF at h
    split at h
    · rename_i hpd
      injection h with h
      subst h
      intro y hy
      rcases Relation.reflTransGen_iff_eq_or_transGen.mp hy with heq | htg
      · subst heq
        intro pr hpr
        rw [childIds_of_plData_none hpd] at hpr
        simp at hpr
      · obtain ⟨c, hedge, _⟩ := Relation.TransGen.head'_iff.mp htg
        unfold Edge at hedge
        rw [childIds_of_plData_none hpd] at hedge
        exact absurd hedge (List.not_mem_nil c)
    · rename_i pd hpd
      have hzipfst : (pd.placedObject.zip pd.lastPlaceObjectPos).map Prod.fst
          = pd.placedObject := by
        apply List.map_fst_zip
        have hl := hLEN x
        rw [childIds_eq hpd, childOffs_eq hpd] at hl
        exact le_of_eq hl
      have hedgeszip : ∀ pr ∈ pd.placedObject.zip pd.lastPlaceObjectPos, Edge w x pr.1 := by
        intro pr hm
        unfold Edge
        rw [childIds_eq hpd]
        exact (List.of_mem_zip hm).1
      have haux : ∀ (l : List (Nat × V3)) (wa wb : World),
          (∀ pr ∈ l, Edge w x pr.1) →
          ((l.map Prod.fst).Nodup) →
          (∀ j, dataOf wa j = dataOf w j) →
          wa.ids = w.ids →
          l.foldlM (fun wacc p => recUpdateF n (setPos wacc p.1 (wacc.pos x + p.2)) p.1) wa
            = some wb →
          (∀ j, dataOf wb j = dataOf wa j) ∧
          (∀ y, (∀ pr ∈ l, ¬ Relation.ReflTransGen (Edge w) pr.1 y) → wb.pos y = wa.pos y) ∧
          (∀ pr ∈ l, wb.pos pr.1 = wa.pos x + pr.2) ∧
          (∀ pr ∈ l, ∀ y, Relation.ReflTransGen (Edge w) pr.1 y → ChildrenOk wb y) := by
        intro l
        induction l with
        | nil =>
          intro wa wb _ _ _ _ hf
          have h2 : wa = wb := Option.some.inj hf
          subst h2
          exact ⟨fun j => rfl, fun y _ => rfl,
            fun pr hpr => absurd hpr (List.not_mem_nil pr),
            fun pr hpr => absurd hpr (List.not_mem_nil pr)⟩
        | cons p rest ihl =>
          intro wa wb hedges hnd hdata hids hf
          rw [List.foldlM_cons] at hf
          cases hr : recUpdateF n (setPos wa p.1 (wa.pos x + p.2)) p.1 with
          | none =>
            rw [hr] at hf
            exact Option.noConfusion hf
          | some wc =>
            rw [hr] at hf
            have hedge : Edge w x p.1 := hedges p (List.mem_cons_self _ _)
            have hpmem : p.1 ∈ w.ids := hCL x p.1 hedge
            have hxnp : x ≠ p.1 := by
              intro he
              exact hAC p.1 (Relation.TransGen.single (he ▸ hedge))
            have hdata1 : ∀ j, dataOf (setPos wa p.1 (wa.pos x + p.2)) j = dataOf w j :=
              fun j => by rw [dataOf_setPos, hdata j]
            have hids1 : (setPos wa p.1 (wa.pos x + p.2)).ids = w.ids := by
              rw [ids_setPos, hids]
            have hdatac : ∀ j, dataOf wc j = dataOf w j :=
              fun j => by rw [(recUpdateF_shape hr).1 j, hdata1 j]
            have hidsc : wc.ids = w.ids := by
              rw [(recUpdateF_shape hr).2.2.1, hids1]
            have hUP1 : ∀ a a' cc, Edge (setPos wa p.1 (wa.pos x + p.2)) a cc →
                Edge (setPos wa p.1 (wa.pos x + p.2)) a' cc → a = a' :=
              fun a a' cc h1 h2 => hUP a a' cc ((edge_iff_of_dataOf hdata1 _ _).mp h1)
                ((edge_iff_of_dataOf hdata1 _ _).mp h2)
            have hND1 : ∀ a, (childIds (setPos wa p.1 (wa.pos x + p.2)) a).Nodup :=
              fun a => by rw [childIds_eq_of_dataOf hdata1]; exact hND a
            have hLEN1 : ∀ a, (childIds (setPos wa p.1 (wa.pos x + p.2)) a).length
                = (childOffs (setPos wa p.1 (wa.pos x + p.2)) a).length :=
              fun a => by
                rw [childIds_eq_of_dataOf hdata1, childOffs_eq_of_dataOf hdata1]
                exact hLEN a
            have hAC1 : Acyclic (setPos wa p.1 (wa.pos x + p.2)) :=
              fun z hz => hAC z ((transGen_iff_of_dataOf hdata1).mp hz)
            have hCL1 : ∀ a cc, Edge (setPos wa p.1 (wa.pos x + p.2)) a cc →
                cc ∈ (setPos wa p.1 (wa.pos x + p.2)).ids :=
              fun a cc hcc => by
                rw [ids_setPos, hids]
                exact hCL a cc ((edge_iff_of_dataOf hdata1 _ _).mp hcc)
            have hw1p : (setPos wa p.1 (wa.pos x + p.2)).pos p.1 = wa.pos x + p.2 :=
              pos_setPos_self wa _ (by rw [hids]; exact hpmem)
            have hcor := ih hUP1 hND1 hLEN1 hAC1 hCL1 hr
            have hframe1 : ∀ y, ¬ Relation.TransGen (Edge w) p.1 y →
                wc.pos y = (setPos wa p.1 (wa.pos x + p.2)).pos y := by
              intro y hy
              exact recUpdateF_frame hr y (fun htg => hy ((transGen_iff_of_dataOf hdata1).mp htg))
            have hposx : wc.pos x = wa.pos x := by
              rw [hframe1 x (fun htg => hAC x (Relation.TransGen.head' hedge htg.to_reflTransGen))]
              exact pos_setPos_ne wa _ hxnp
            rw [List.map_cons, List.nodup_cons] at hnd
            obtain ⟨hpnotin, hndrest⟩ := hnd
            obtain ⟨hdat2, hframe2, hset2, hcor2⟩ := ihl wc wb
              (fun pr hm => hedges pr (List.mem_cons_of_mem _ hm)) hndrest hdatac hidsc hf
            have hdatab : ∀ j, dataOf wb j = dataOf w j :=
              fun j => by rw [hdat2 j, hdatac j]
            refine ⟨fun j => by rw [hdat2 j, (recUpdateF_shape hr).1 j, dataOf_setPos], ?_, ?_, ?_⟩
            · intro y hy
              have h1 : wb.pos y = wc.pos y :=
                hframe2 y (fun pr hm => hy pr (List.mem_cons_of_mem _ hm))
              have hyns : ¬ Relation.ReflTransGen (Edge w) p.1 y := hy p (List.mem_cons_self _ _)
              have h2 : wc.pos y = (setPos wa p.1 (wa.pos x + p.2)).pos y :=
                hframe1 y (fun htg => hyns htg.to_reflTransGen)
              have hynp : y ≠ p.1 := fun he => hyns (he ▸ Relation.ReflTransGen.refl)
              rw [h1, h2, pos_setPos_ne wa _ hynp]
            · intro pr hm
              rcases List.mem_cons.mp hm with heq | hm'
              · subst heq
                have hstable : wb.pos pr.1 = wc.pos pr.1 := by
                  apply hframe2
                  intro pr' hm' hrt
                  have hne : pr.1 ≠ pr'.1 := by
                    intro he
                    exact hpnotin (he ▸ List.mem_map_of_mem Prod.fst hm')
                  exact siblings_disjoint hUP hAC hedge
                    (hedges pr' (List.mem_cons_of_mem _ hm')) hne pr.1
                    Relation.ReflTransGen.refl hrt
                have hself : wc.pos pr.1 = (setPos wa pr.1 (wa.pos x + pr.2)).pos pr.1 :=
                  hframe1 pr.1 (fun htg => hAC pr.1 htg)
                rw [hstable, hself, hw1p]
              · rw [hset2 pr hm', hposx]
            · intro pr hm y hrt
              rcases List.mem_cons.mp hm with heq | hm'
              · subst heq
                have hok : ChildrenOk wc y := hcor y ((reflTransGen_iff_of_dataOf hdata1).mpr hrt)
                have hstab : ∀ z, Relation.ReflTransGen (Edge w) pr.1 z →
                    wb.pos z = wc.pos z := by
                  intro z hz
                  apply hframe2
                  intro pr' hm' hrz
                  have hne : pr.1 ≠ pr'.1 := by
                    intro he
                    exact hpnotin (he ▸ List.mem_map_of_mem Prod.fst hm')
                  exact siblings_disjoint hUP hAC hedge
                    (hedges pr' (List.mem_cons_of_mem _ hm')) hne z hz hrz
                intro pr2 hpr2
                have hz1 : childIds wb y = childIds wc y := by
                  rw [childIds_eq_of_dataOf hdatab, childIds_eq_of_dataOf hdatac]
                have hz2 : childOffs wb y = childOffs wc y := by
                  rw [childOffs_eq_of_dataOf hdatab, childOffs_eq_of_dataOf hdatac]
                rw [hz1, hz2] at hpr2
                have hokpr := hok pr2 hpr2
                have hchild : Edge w y pr2.1 := by
                  unfold Edge
                  rw [← childIds_eq_of_dataOf hdatac]
                  exact (List.of_mem_zip hpr2).1
                have hy2 : wb.pos y = wc.pos y := hstab y hrt
                have hc2 : wb.pos pr2.1 = wc.pos pr2.1 := hstab pr2.1 (hrt.tail hchild)
                rw [hc2, hy2]
                exact hokpr
              · exact hcor2 pr hm' y hrt
      have hndzip : ((pd.placedObject.zip pd.lastPlaceObjectPos).map Prod.fst).Nodup := by
        rw [hzipfst]
        have hx := hND x
        rw [childIds_eq hpd] at hx
        exact hx
      obtain ⟨h0, hframe, hset, hcor⟩ :=
        haux _ w w' hedgeszip hndzip (fun j => rfl) rfl h
      intro y hy
      rcases Relation.reflTransGen_iff_eq_or_transGen.mp hy with heq | htg
      · subst heq
        intro pr hpr
        have hcx : childIds w' y = pd.placedObject := by
          rw [childIds_eq_of_dataOf h0, childIds_eq hpd]
        have hox : childOffs w' y = pd.lastPlaceObjectPos := by
          rw [childOffs_eq_of_dataOf h0, childOffs_eq hpd]
        rw [hcx, hox] at hpr
        have h1 := hset pr hpr
        have h2 : w'.pos y = w.pos y :=
          hframe y (fun pr' hm' hrt => not_reach_parent hAC (hedgeszip pr' hm') hrt)
        rw [h1, h2]
      · obtain ⟨c, hedge, hrt⟩ := Relation.TransGen.head'_iff.mp htg
        have hcm : c ∈ (pd.placedObject.zip pd.lastPlaceObjectPos).map Prod.fst := by
          rw [hzipfst]
          unfold Edge at hedge
          rw [childIds_eq hpd] at hedge
          exact hedge
        obtain ⟨pr, hm, he⟩ := List.mem_map.mp hcm
        apply hcor pr hm y
        rw [he]
        exact hrt

/-! ### Divergence of the traversals on cyclic configurations -/

theorem recUpdateF_cycle_none {n : Nat} :
    ∀ {w : World} {x : Nat},
      (∀ p, (childIds w p).length = (childOffs w p).length) →
      (∃ y, Relation.ReflTransGen (Edge w) x y ∧ Relation.TransGen (Edge w) y y) →
      recUpdateF n w x = none := by
  induction n with
  | zero =>
    intro w x _ _
    rfl
  | succ n ih =>
    intro w x hLEN hcyc
    obtain ⟨y, hxy, hyy⟩ := hcyc
    have hcex : ∃ c, Edge w x c ∧
        ∃ z, Relation.ReflTransGen (Edge w) c z ∧ Relation.TransGen (Edge w) z z := by
      rcases Relation.reflTransGen_iff_eq_or_transGen.mp hxy with heq | htg
      · subst heq
        obtain ⟨c, hedge, hrt⟩ := Relation.TransGen.head'_iff.mp hyy
        exact ⟨c, hedge, y, hrt, hyy⟩
      · obtain ⟨c, hedge, hrt⟩ := Relation.TransGen.head'_iff.mp htg
        exact ⟨c, hedge, y, hrt, hyy⟩
    obtain ⟨c, hedge, hcycc⟩ := hcex
    unfold recUpdateF
    rcases hpd : w.plData x with _ | pd
    · unfold Edge at hedge
      rw [childIds_of_plData_none hpd] at hedge
      exact absurd hedge (List.not_mem_nil c)
    · simp only [hpd]
      have hlx := hLEN x
      rw [childIds_eq hpd, childOffs_eq hpd] at hlx
      have hcmem : c ∈ pd.placedObject := by
        unfold Edge at hedge
        rw [childIds_eq hpd] at hedge
        exact hedge
      have hczip : ∃ pr ∈ pd.placedObject.zip pd.lastPlaceObjectPos, pr.1 = c := by
        have hmm : c ∈ (pd.placedObject.zip pd.lastPlaceObjectPos).map Prod.fst := by
          rw [List.map_fst_zip _ _ (le_of_eq hlx)]
          exact hcmem
        obtain ⟨pr, hm, he⟩ := List.mem_map.mp hmm
        exact ⟨pr, hm, he⟩
      have haux : ∀ (l : List (Nat × V3)) (wa : World),
          (∀ j, dataOf wa j = dataOf w j) →
          (∃ pr ∈ l, ∃ z, Relation.ReflTransGen (Edge w) pr.1 z ∧
            Relation.TransGen (Edge w) z z) →
          l.foldlM (fun wacc p => recUpdateF n (setPos wacc p.1 (wacc.pos x + p.2)) p.1) wa
            = none := by
        intro l
        induction l with
        | nil =>
          intro wa _ hex
          obtain ⟨pr, hm, _⟩ := hex
          exact absurd hm (List.not_mem_nil pr)
        | cons p rest ihl =>
          intro wa hdata hex
          rw [List.foldlM_cons]
          cases hr : recUpdateF n (setPos wa p.1 (wa.pos x + p.2)) p.1 with
          | none => rfl
          | some wc =>
            obtain ⟨pr, hm, z, hrz, hzz⟩ := hex
            rcases List.mem_cons.mp hm with heq | hm'
            · subst heq
              have hd1 : ∀ j, dataOf (setPos wa pr.1 (wa.pos x + pr.2)) j = dataOf w j :=
                fun j => by rw [dataOf_setPos, hdata j]
              have hlen1 : ∀ q, (childIds (setPos wa pr.1 (wa.pos x + pr.2)) q).length
                  = (childOffs (setPos wa pr.1 (wa.pos x + pr.2)) q).length := by
                intro q
                rw [childIds_eq_of_dataOf hd1, childOffs_eq_of_dataOf hd1]
                exact hLEN q
              have hnone := ih hlen1 ⟨z, (reflTransGen_iff_of_dataOf hd1).mpr hrz,
                (transGen_iff_of_dataOf hd1).mpr hzz⟩
              rw [hnone] at hr
              exact Option.noConfusion hr
            · have hdatac : ∀ j, dataOf wc j = dataOf w j :=
                fun j => by rw [(recUpdateF_shape hr).1 j, dataOf_setPos, hdata j]
              exact ihl wc hdatac ⟨pr, hm', z, hrz, hzz⟩
      refine haux _ w (fun j => rfl) ?_
      obtain ⟨pr, hm, he⟩ := hczip
      obtain ⟨z, hz1, hz2⟩ := hcycc
      exact ⟨pr, hm, z, by rw [he]; exact hz1, hz2⟩

theorem getAllChildsSetF_cycle_none {n : Nat} :
    ∀ {w : World} {x : Nat},
      (∃ y, Relation.ReflTransGen (Edge w) x y ∧ Relation.TransGen (Edge w) y y) →
      getAllChildsSetF n w x = none := by
  induction n with
  | zero =>
    intro w x _
    rfl
  | succ n ih =>
    intro w x hcyc
    obtain ⟨y, hxy, hyy⟩ := hcyc
    have hcex : ∃ c, Edge w x c ∧
        ∃ z, Relation.ReflTransGen (Edge w) c z ∧ Relation.TransGen (Edge w) z z := by
      rcases Relation.reflTransGen_iff_eq_or_transGen.mp hxy with heq | htg
      · subst heq
        obtain ⟨c, hedge, hrt⟩ := Relation.TransGen.head'_iff.mp hyy
        exact ⟨c, hedge, y, hrt, hyy⟩
      · obtain ⟨c, hedge, hrt⟩ := Relation.TransGen.head'_iff.mp htg
        exact ⟨c, hedge, y, hrt, hyy⟩
    obtain ⟨c, hedge, hcycc⟩ := hcex
    unfold getAllChildsSetF
    rcases hpd : w.plData x with _ | pd
    · unfold Edge at hedge
      rw [childIds_of_plData_none hpd] at hedge
      exact absurd hedge (List.not_mem_nil c)
    · simp only [hpd]
      have hcmem : c ∈ pd.placedObject := by
        unfold Edge at hedge
        rw [childIds_eq hpd] at hedge
        exact hedge
      have haux : ∀ (l : List Nat) (acc : List Nat),
          (∃ c0 ∈ l, ∃ z, Relation.ReflTransGen (Edge w) c0 z ∧
            Relation.TransGen (Edge w) z z) →
          l.foldlM (fun acc c => (getAllChildsSetF n w c).map (fun cs => acc ++ c :: cs)) acc
            = none := by
        intro l
        induction l with
        | nil =>
          intro acc hex
          obtain ⟨c0, hm, _⟩ := hex
          exact absurd hm (List.not_mem_nil c0)
        | cons c0 rest ihl =>
          intro acc hex
          rw [List.foldlM_cons]
          cases hc0 : getAllChildsSetF n w c0 with
          | none => rfl
          | some cs =>
            obtain ⟨c1, hm, z, hrz, hzz⟩ := hex
            rcases List.mem_cons.mp hm with heq | hm'
            · subst heq
              have hnone := ih ⟨z, hrz, hzz⟩
              rw [hnone] at hc0
              exact Option.noConfusion hc0
            · exact ihl _ ⟨c1, hm', z, hrz, hzz⟩
      obtain ⟨z, hz1, hz2⟩ := hcycc
      exact haux _ [] ⟨c, hcmem, z, hz1, hz2⟩

/-- Claim C8: from a well-formed acyclic configuration, a completed
`recursiveUpdatePlaceableObject(host)` leaves the host where it was and
places every node in the host's subtree — the host itself and every
transitively attached descendant — so that each of its directly attached
children sits at that node's position plus the recorded relative position
(`lastPlaceObjectPos`). -/
theorem claim8_propagation_correct {n : Nat} {w w' : World} {host : Nat}
    (hwf : WF w) (hac : Acyclic w) (h : recUpdateF n w host = some w') :
    (∀ y, Relation.ReflTransGen (Edge w) host y → ChildrenOk w' y) ∧
    w'.pos host = w.pos host :=
  ⟨recUpdateF_correct (WF_unique_parent hwf) (WF_children_nodup hwf)
      (WF_children_len hwf) hac (WF_children_mem hwf) h,
   recUpdateF_frame h host (fun htg => hac host htg)⟩

/-- Witness for C8 at a concrete input: propagating from the table in
`wChain` (table hosting the plate hosting the knife) places the whole
subtree at recorded offsets and keeps the table in place. -/
theorem claim8_witness :
    (∀ y, Relation.ReflTransGen (Edge wChain) 0 y → ChildrenOk wChainProp y) ∧
    wChainProp.pos 0 = wChain.pos 0 :=
  @claim8_propagation_correct 3 wChain wChainProp 0 (by decide)
    (acyclic_of_rank_list id (by decide)) rfl

theorem dragTicks_shape {fuel : Nat} {obj : Nat} :
    ∀ (ps : List V3) {wa wb : World}, dragTicks fuel wa obj ps = some wb →
      (∀ j, dataOf wb j = dataOf wa j) ∧ (∀ j, wb.rot j = wa.rot j) ∧ wb.ids = wa.ids := by
  intro ps
  induction ps with
  | nil =>
    intro wa wb h
    have h2 : wa = wb := Option.some.inj h
    subst h2
    exact ⟨fun j => rfl, fun j => rfl, rfl⟩
  | cons p rest ihp =>
    intro wa wb h
    unfold dragTicks at h
    rw [List.foldlM_cons] at h
    cases hr : dragTick fuel wa obj p with
    | none =>
      rw [hr] at h
      exact Option.noConfusion h
    | some wc =>
      rw [hr] at h
      unfold dragTick at hr
      obtain ⟨hd1, hr1, hi1, _⟩ := recUpdateF_shape hr
      obtain ⟨hd2, hr2, hi2⟩ := ihp h
      refine ⟨fun j => ?_, fun j => ?_, ?_⟩
      · rw [hd2 j, hd1 j, dataOf_setPos]
      · rw [hr2 j, hr1 j, rot_setPos]
      · rw [hi2, hi1, ids_setPos]

/-- Claim C6: a drag of a registered object — any number of speculative
tick moves with propagation — that ends with no placement candidate
restores the object's snapshotted position and rotation verbatim
(re-running propagation from it), and the attachment graph (every
`placedOn` reference and every host's two parallel attachment lists) is
exactly as it was before the drag. -/
theorem claim6_rollback {fuel : Nat} {w w1 w2 : World} {obj : Nat} {ps : List V3}
    (hwf : WF w) (hobj : obj ∈ w.ids)
    (hdrag : dragTicks fuel w obj ps = some w1)
    (hrel : releaseNoCandidate fuel w1 obj (w.pos obj) (w.rot obj) = some w2) :
    w2.pos obj = w.pos obj ∧ w2.rot obj = w.rot obj ∧
    (∀ x, placedOnOf w2 x = placedOnOf w x ∧ childIds w2 x = childIds w x ∧
      childOffs w2 x = childOffs w x) := by
  obtain ⟨hd1, hr1, hi1⟩ := dragTicks_shape ps hdrag
  unfold releaseNoCandidate at hrel
  obtain ⟨hd2, hr2, hi2, _⟩ := recUpdateF_shape hrel
  have hdr : ∀ j, dataOf (setRot (setPos w1 obj (w.pos obj)) obj (w.rot obj)) j
      = dataOf w j := by
    intro j
    rw [dataOf_setRot, dataOf_setPos, hd1 j]
  have hobj1 : obj ∈ w1.ids := by
    rw [hi1]
    exact hobj
  have hd2w : ∀ j, dataOf w2 j = dataOf w j := fun j => by rw [hd2 j, hdr j]
  refine ⟨?_, ?_, ?_⟩
  · have hnc : ¬ Relation.TransGen
        (Edge (setRot (setPos w1 obj (w.pos obj)) obj (w.rot obj))) obj obj := by
      intro htg
      have hlen : ∀ q, (childIds (setRot (setPos w1 obj (w.pos obj)) obj (w.rot obj)) q).length
          = (childOffs (setRot (setPos w1 obj (w.pos obj)) obj (w.rot obj)) q).length := by
        intro q
        rw [childIds_eq_of_dataOf hdr, childOffs_eq_of_dataOf hdr]
        exact WF_children_len hwf q
      have hnone := @recUpdateF_cycle_none fuel
        (setRot (setPos w1 obj (w.pos obj)) obj (w.rot obj)) obj hlen
        ⟨obj, Relation.ReflTransGen.refl, htg⟩
      rw [hnone] at hrel
      exact Option.noConfusion hrel
    rw [recUpdateF_frame hrel obj hnc, pos_setRot]
    exact pos_setPos_self w1 _ hobj1
  · rw [hr2 obj]
    exact rot_setRot_self _ _ (by rw [ids_setPos]; exact hobj1)
  · intro x
    refine ⟨?_, ?_, ?_⟩
    · exact placedOnOf_congr (by rw [selData_eq_dataOf, selData_eq_dataOf, hd2w x])
    · exact childIds_eq_of_dataOf hd2w x
    · exact childOffs_eq_of_dataOf hd2w x

/-- Witness for C6 at a concrete input: dragging the plate of `wChain` to
`(2, 3, 4)` for one tick and releasing with no candidate restores its
original position and rotation and leaves the attachment graph intact. -/
theorem claim6_witness :
    wChainBack.pos 1 = wChain.pos 1 ∧ wChainBack.rot 1 = wChain.rot 1 ∧
    (∀ x, placedOnOf wChainBack x = placedOnOf wChain x ∧
      childIds wChainBack x = childIds wChain x ∧
      childOffs wChainBack x = childOffs wChain x) :=
  @claim6_rollback 3 wChain wChainDrag wChainBack 1 [⟨2, 3, 4⟩] (by decide) (by decide) rfl rfl

/-! ### Termination of the traversals on acyclic configurations -/

theorem plData_of_not_mem {w : World} {p : Nat} (h : p ∉ w.ids) : w.plData p = none := by
  have hl := @lookup_eq_none_of_not_mem w.entries p (by simpa [World.ids] using h)
  unfold World.plData World.objData
  rw [hl]
  rfl

theorem getAllChildsSetF_mono {n : Nat} :
    ∀ {w : World} {x : Nat} {s : List Nat},
      getAllChildsSetF n w x = some s → getAllChildsSetF (n + 1) w x = some s := by
  induction n with
  | zero =>
    intro w x s h
    exact Option.noConfusion h
  | succ n ih =>
    intro w x s h
    unfold getAllChildsSetF at h ⊢
    split at h
    · exact h
    · rename_i pd hpd
      have haux : ∀ (l : List Nat) (acc s : List Nat),
          l.foldlM (fun acc c => (getAllChildsSetF n w c).map (fun cs => acc ++ c :: cs)) acc
            = some s →
          l.foldlM (fun acc c => (getAllChildsSetF (n + 1) w c).map (fun cs => acc ++ c :: cs)) acc
            = some s := by
        intro l
        induction l with
        | nil =>
          intro acc s h
          exact h
        | cons c rest ihl =>
          intro acc s h
          rw [List.foldlM_cons] at h ⊢
          cases hc : getAllChildsSetF n w c with
          | none =>
            rw [hc] at h
            exact Option.noConfusion h
          | some cs =>
            rw [hc] at h
            rw [ih hc]
            exact ihl _ _ h
      exact haux _ _ _ h

theorem recUpdateF_mono {n : Nat} :
    ∀ {w : World} {x : Nat} {w' : World},
      recUpdateF n w x = some w' → recUpdateF (n + 1) w x = some w' := by
  induction n with
  | zero =>
    intro w x w' h
    exact Option.noConfusion h
  | succ n ih =>
    intro w x w' h
    unfold recUpdateF at h ⊢
    split at h
    · exact h
    · rename_i pd hpd
      have haux : ∀ (l : List (Nat × V3)) (wa wb : World),
          l.foldlM (fun wacc p => recUpdateF n (setPos wacc p.1 (wacc.pos x + p.2)) p.1) wa
            = some wb →
          l.foldlM (fun wacc p => recUpdateF (n + 1) (setPos wacc p.1 (wacc.pos x + p.2)) p.1) wa
            = some wb := by
        intro l
        induction l with
        | nil =>
          intro wa wb h
          exact h
        | cons p rest ihl =>
          intro wa wb h
          rw [List.foldlM_cons] at h ⊢
          cases hr : recUpdateF n (setPos wa p.1 (wa.pos x + p.2)) p.1 with
          | none =>
            rw [hr] at h
            exact Option.noConfusion h
          | some wc =>
            rw [hr] at h
            rw [ih hr]
            exact ihl _ _ h
      exact haux _ _ _ h

theorem getAllChildsSetF_le {m n : Nat} (hmn : m ≤ n) :
    ∀ {w : World} {x : Nat} {s : List Nat},
      getAllChildsSetF m w x = some s → getAllChildsSetF n w x = some s := by
  obtain ⟨k, rfl⟩ := Nat.exists_eq_add_of_le hmn
  clear hmn
  induction k with
  | zero =>
    intro w x s h
    exact h
  | succ k ihk =>
    intro w x s h
    exact getAllChildsSetF_mono (ihk h)

theorem recUpdateF_le {m n : Nat} (hmn : m ≤ n) :
    ∀ {w : World} {x : Nat} {w' : World},
      recUpdateF m w x = some w' → recUpdateF n w x = some w' := by
  obtain ⟨k, rfl⟩ := Nat.exists_eq_add_of_le hmn
  clear hmn
  induction k with
  | zero =>
    intro w x s h
    exact h
  | succ k ihk =>
    intro w x s h
    exact recUpdateF_mono (ihk h)

theorem uniform_fuel {P : Nat → Nat → Prop}
    (hmono : ∀ c m n, m ≤ n → P c m → P c n) :
    ∀ (l : List Nat), (∀ c ∈ l, ∃ n, P c n) → ∃ N, ∀ c ∈ l, P c N := by
  intro l
  induction l with
  | nil => exact fun _ => ⟨0, fun c hc => absurd hc (List.not_mem_nil c)⟩
  | cons c rest ihl =>
    intro hall
    obtain ⟨n1, h1⟩ := hall c (List.mem_cons_self _ _)
    obtain ⟨N2, h2⟩ := ihl (fun c' hc' => hall c' (List.mem_cons_of_mem _ hc'))
    refine ⟨max n1 N2, ?_⟩
    intro c' hc'
    rcases List.mem_cons.mp hc' with heq | hm
    · rw [heq]
      exact hmono c n1 _ (le_max_left _ _) h1
    · exact hmono c' N2 _ (le_max_right _ _) (h2 c' hm)

theorem traversals_terminate {w : World} (hac : Acyclic w) (hcl : Closed w) :
    ∀ x, ∃ n, (getAllChildsSetF n w x).isSome ∧
      ∀ w₀, (∀ j, dataOf w₀ j = dataOf w j) → (recUpdateF n w₀ x).isSome := by
  have hclall : ∀ p c, Edge w p c → c ∈ w.ids :=
    fun p c h => hcl p (mem_ids_of_edge h) c h
  have hmain : ∀ a : {z // z ∈ w.ids}, ∃ n, (getAllChildsSetF n w a.1).isSome ∧
      ∀ w₀, (∀ j, dataOf w₀ j = dataOf w j) → (recUpdateF n w₀ a.1).isSome := by
    haveI hT : IsTrans {z // z ∈ w.ids}
        (fun a b => Relation.TransGen (Edge w) b.1 a.1) :=
      ⟨fun a b c hab hbc => Relation.TransGen.trans hbc hab⟩
    haveI hI : IsIrrefl {z // z ∈ w.ids}
        (fun a b => Relation.TransGen (Edge w) b.1 a.1) :=
      ⟨fun a h => hac a.1 h⟩
    have hwfr := Finite.wellFounded_of_trans_of_irrefl
      (fun (a b : {z // z ∈ w.ids}) => Relation.TransGen (Edge w) b.1 a.1)
    intro a
    refine @WellFounded.induction _ _ hwfr
      (fun a => ∃ n, (getAllChildsSetF n w a.1).isSome ∧
        ∀ w₀, (∀ j, dataOf w₀ j = dataOf w j) → (recUpdateF n w₀ a.1).isSome) a ?_
    intro b ihb
    have hkid : ∀ c ∈ childIds w b.1, ∃ n, (getAllChildsSetF n w c).isSome ∧
        ∀ w₀, (∀ j, dataOf w₀ j = dataOf w j) → (recUpdateF n w₀ c).isSome := by
      intro c hc
      have hedge : Edge w b.1 c := hc
      exact ihb ⟨c, hclall _ _ hedge⟩ (Relation.TransGen.single hedge)
    have hmono : ∀ c m n, m ≤ n →
        ((getAllChildsSetF m w c).isSome ∧
          ∀ w₀, (∀ j, dataOf w₀ j = dataOf w j) → (recUpdateF m w₀ c).isSome) →
        ((getAllChildsSetF n w c).isSome ∧
          ∀ w₀, (∀ j, dataOf w₀ j = dataOf w j) → (recUpdateF n w₀ c).isSome) := by
      intro c m n hmn h
      obtain ⟨h1, h2⟩ := h
      constructor
      · obtain ⟨s, hs⟩ := Option.isSome_iff_exists.mp h1
        rw [getAllChildsSetF_le hmn hs]
        rfl
      · intro w₀ hd
        obtain ⟨w', hw'⟩ := Option.isSome_iff_exists.mp (h2 w₀ hd)
        rw [recUpdateF_le hmn hw']
        rfl
    obtain ⟨N, hN⟩ := uniform_fuel hmono (childIds w b.1) hkid
    refine ⟨N + 1, ?_, ?_⟩
    · unfold getAllChildsSetF
      rcases hpd : w.plData b.1 with _ | pd
      · simp only [hpd]
        rfl
      · simp only [hpd]
        have hfold : ∀ (l : List Nat), (∀ c ∈ l, (getAllChildsSetF N w c).isSome) →
            ∀ (acc : List Nat),
            (l.foldlM (fun acc c => (getAllChildsSetF N w c).map (fun cs => acc ++ c :: cs))
              acc).isSome := by
          intro l
          induction l with
          | nil =>
            intro _ acc
            rfl
          | cons c rest ihl =>
            intro hl acc
            rw [List.foldlM_cons]
            obtain ⟨cs, hcs⟩ := Option.isSome_iff_exists.mp (hl c (List.mem_cons_self _ _))
            rw [hcs]
            exact ihl (fun c' hc' => hl c' (List.mem_cons_of_mem _ hc')) _
        apply hfold
        intro c hc
        have hc' : c ∈ childIds w b.1 := by
          rw [childIds_eq hpd]
          exact hc
        exact (hN c hc').1
    · intro w₀ hd
      unfold recUpdateF
      rcases hpd0 : w₀.plData b.1 with _ | pd
      · simp only [hpd0]
        rfl
      · simp only [hpd0]
        have hpdw : w.plData b.1 = some pd := by
          rw [plData_eq_dataOf, ← hd b.1, ← plData_eq_dataOf, hpd0]
        have hfold : ∀ (l : List (Nat × V3)),
            (∀ pr ∈ l, pr.1 ∈ childIds w b.1) →
            ∀ (wa : World), (∀ j, dataOf wa j = dataOf w j) →
            (l.foldlM (fun wacc p => recUpdateF N (setPos wacc p.1 (wacc.pos b.1 + p.2)) p.1)
              wa).isSome := by
          intro l
          induction l with
          | nil =>
            intro _ wa _
            rfl
          | cons p rest ihl =>
            intro hl wa hda
            rw [List.foldlM_cons]
            have hda1 : ∀ j, dataOf (setPos wa p.1 (wa.pos b.1 + p.2)) j = dataOf w j :=
              fun j => by rw [dataOf_setPos, hda j]
            obtain ⟨wc, hwc⟩ := Option.isSome_iff_exists.mp
              ((hN p.1 (hl p (List.mem_cons_self _ _))).2 _ hda1)
            rw [hwc]
            have hdac : ∀ j, dataOf wc j = dataOf w j :=
              fun j => by rw [(recUpdateF_shape hwc).1 j, hda1 j]
            exact ihl (fun pr hm => hl pr (List.mem_cons_of_mem _ hm)) wc hdac
        apply hfold
        · intro pr hm
          rw [childIds_eq hpdw]
          exact (List.of_mem_zip hm).1
        · exact hd
  intro x
  by_cases hx : x ∈ w.ids
  · exact hmain ⟨x, hx⟩
  · refine ⟨1, ?_, ?_⟩
    · unfold getAllChildsSetF
      simp only [plData_of_not_mem hx]
      rfl
    · intro w₀ hd
      have hpd0 : w₀.plData x = none := by
        rw [plData_eq_dataOf, hd x, ← plData_eq_dataOf, plData_of_not_mem hx]
      unfold recUpdateF
      simp only [hpd0]
      rfl

/-- Claim C10: `getAllChildsSet` and `recursiveUpdatePlaceableObject` carry
no visited-set; on every finite attachment configuration that is acyclic
(and whose attachment lists mention only registered objects) both
traversals terminate — some fuel suffices — and conversely, from any object
that can reach a cycle, both recursions are unbounded: they fail for every
amount of fuel (given, for the position update, that the parallel lists are
length-aligned, without which the source would fault on a missing relative
position).  Their recursion is thus well founded exactly on the acyclicity
of the attachment graph. -/
theorem claim10_termination_iff_acyclic (w : World) :
    (Acyclic w → Closed w →
      ∀ x, ∃ n, (getAllChildsSetF n w x).isSome ∧ (recUpdateF n w x).isSome) ∧
    (∀ x n, (∃ y, Relation.ReflTransGen (Edge w) x y ∧ Relation.TransGen (Edge w) y y) →
      getAllChildsSetF n w x = none ∧
      ((∀ p, (childIds w p).length = (childOffs w p).length) → recUpdateF n w x = none)) := by
  constructor
  · intro hac hcl x
    obtain ⟨n, h1, h2⟩ := traversals_terminate hac hcl x
    exact ⟨n, h1, h2 w (fun j => rfl)⟩
  · intro x n hcyc
    exact ⟨getAllChildsSetF_cycle_none hcyc,
      fun hlen => recUpdateF_cycle_none hlen hcyc⟩

/-- Witness for C10 at a concrete input: on the acyclic, closed chain world
both traversals terminate from the table. -/
theorem claim10_witness :
    ∃ n, (getAllChildsSetF n wChain 0).isSome ∧ (recUpdateF n wChain 0).isSome :=
  (claim10_termination_iff_acyclic wChain).1 (acyclic_of_rank_list id (by decide)) (by decide) 0
